import Mathlib

/-!
Verification of the agent-memory-mcp service against its specification.

The TypeScript sources are shallowly embedded as Lean definitions:

* JS `number` values that only ever hold exact results in the executions we
  reason about are modelled as `ℚ`; the two transcendental builtins the code
  uses (`Math.sqrt` in the HNSW cosine distance, `0.5 ** x` in time-weighted
  ranking) are abstracted as function parameters, everything around them is
  translated literally.
* JS strings are modelled as Lean `String` / `List Char` (UTF-16 surrogate
  pairs are idealised as single characters; none of the properties below
  depend on surrogates).
* `Map` / `Set` objects are modelled as insertion-ordered association lists /
  duplicate-free lists, matching JS iteration order.
* `Date` values are modelled by a record of the UTC components the code
  reads, plus the epoch-milliseconds value used for `Date` comparison;
  `toISOString` followed by `new Date(...)` is the identity on such values,
  so ISO round-tripping is modelled as storing the value itself.
* Fallible operations return `Except`/`Option`; JS non-null assertions (`!`)
  that are unreachable on the states produced by the public operations are
  modelled by total matches whose `none` branch returns an (unreachable)
  default, noted at each site.
-/

/-! # JS primitives -/

/-- JS `parseInt(s, 10)`: skip leading whitespace, optional sign, then the
longest digit prefix; `none` models `NaN` (no digits). Trailing garbage is
ignored, exactly as in JS (`parseInt("5x") = 5`). -/
def jsParseInt (s : String) : Option Int :=
  let cs := s.toList.dropWhile (fun c => c.isWhitespace)
  let (neg, cs) : Bool × List Char :=
    match cs with
    | '-' :: rest => (true, rest)
    | '+' :: rest => (false, rest)
    | rest => (false, rest)
  let digits := cs.takeWhile (fun c => c.isDigit)
  if digits.isEmpty then none
  else
    let v : Nat := digits.foldl (fun acc c => acc * 10 + (c.toNat - 48)) 0
    some (if neg then -(v : Int) else (v : Int))

/-- JS `s.trim()` (strip whitespace from both ends), implemented on the
character list so that it reduces in the kernel. -/
def strTrim (s : String) : String :=
  String.mk
    (((s.toList.dropWhile (fun c => c.isWhitespace)).reverse.dropWhile
        (fun c => c.isWhitespace)).reverse)

/-- JS `s.startsWith(pre)`. -/
def strStartsWith (s pre : String) : Bool :=
  pre.toList.isPrefixOf s.toList

/-- JS `s.slice(n)`. -/
def strDrop (s : String) (n : Nat) : String :=
  String.mk (s.toList.drop n)

/-- JS `s.slice(0, n)`. -/
def strTake (s : String) (n : Nat) : String :=
  String.mk (s.toList.take n)

/-- JS `s.trimEnd()`. -/
def strTrimEnd (s : String) : String :=
  String.mk ((s.toList.reverse.dropWhile (fun c => c.isWhitespace)).reverse)

/-- JS `s.split(c)` for a single-character separator. -/
def strSplitOnChar (s : String) (c : Char) : List String :=
  (s.toList.splitOn c).map String.mk

/-- JS `s.trim().split(/\s+/)` for the purpose of counting and reading
fields: the whitespace-separated words of `s`. -/
def splitWs (s : String) : List String :=
  ((s.toList.splitOnP (fun c => c.isWhitespace)).filter (fun t => t ≠ [])).map
    String.mk

/-- Does `pat` occur as a contiguous sublist of `l`?  Models JS
`String.prototype.includes` on the character-list level. -/
def containsSubstrL : List Char → List Char → Bool
  | [], pat => pat.isPrefixOf []
  | c :: t, pat => pat.isPrefixOf (c :: t) || containsSubstrL t pat

/-- JS `s.includes(pat)`. -/
def containsSubstr (s pat : String) : Bool :=
  containsSubstrL s.toList pat.toList

/-- The remainder of `l` after the first occurrence of `pat`, if `pat`
occurs (the leftmost-match behaviour of a JS regex anchored on a literal). -/
def afterFirstL : List Char → List Char → Option (List Char)
  | [], pat => if pat.isPrefixOf [] then some [] else none
  | c :: t, pat =>
    if pat.isPrefixOf (c :: t) then some ((c :: t).drop pat.length)
    else afterFirstL t pat

/-- JS `s.replace(old, new)` with a string pattern: replace the first
occurrence only.  ($-patterns in the replacement are not interpreted; no
call site below passes one.) -/
def replaceFirstL : List Char → List Char → List Char → List Char
  | [], pat, rep => if pat.isPrefixOf [] then rep else []
  | c :: t, pat, rep =>
    if pat.isPrefixOf (c :: t) then rep ++ (c :: t).drop pat.length
    else c :: replaceFirstL t pat rep

/-- JS `content.replace(oldText, newText)` (first occurrence). -/
def replaceFirst (s pat rep : String) : String :=
  String.mk (replaceFirstL s.toList pat.toList rep.toList)

/-- JS truthiness of an optional string argument: `undefined` and `""` are
falsy. -/
def jsTruthy : Option String → Bool
  | none => false
  | some s => s ≠ ""

/-! Stable insertion sort by a `ℚ`-valued key, modelling
`Array.prototype.sort` with a numeric comparator (stable per ES2019). -/

/-- Insert `x` after every element whose key is `≤ key x` (stability). -/
def insortBy (key : α → ℚ) (x : α) : List α → List α
  | [] => [x]
  | y :: t => if key x < key y then x :: y :: t else y :: insortBy key x t

/-- Stable sort ascending by `key`. -/
def sortBy (key : α → ℚ) (l : List α) : List α :=
  l.foldl (fun acc x => insortBy key x acc) []

/-! Insertion-ordered association maps, modelling JS `Map` (set keeps the
original slot, delete removes it, iteration follows insertion order). -/

/-- JS `Map.get`. -/
def mget [DecidableEq κ] : List (κ × β) → κ → Option β
  | [], _ => none
  | (a, b) :: t, k => if a = k then some b else mget t k

/-- JS `Map.set`: replace in place, or append a fresh key at the end. -/
def mset [DecidableEq κ] : List (κ × β) → κ → β → List (κ × β)
  | [], k, v => [(k, v)]
  | (a, b) :: t, k, v => if a = k then (a, v) :: t else (a, b) :: mset t k v

/-- JS `Map.delete` (keys are unique in every reachable map). -/
def merase [DecidableEq κ] : List (κ × β) → κ → List (κ × β)
  | [], _ => []
  | (a, b) :: t, k => if a = k then t else (a, b) :: merase t k

/-- JS `Set.add` on an insertion-ordered duplicate-free list. -/
def sadd (s : List String) (x : String) : List String :=
  if x ∈ s then s else s ++ [x]

/-- JS `Set.delete`. -/
def serase (s : List String) (x : String) : List String :=
  s.filter (fun y => y ≠ x)

/-! # Reminder scheduler (src/reminders.ts) -/

namespace Rem

/-- The UTC components a JS `Date` exposes to this code, together with its
epoch-milliseconds value (used by `Date` comparison).  `month0` is
0-based as returned by `getUTCMonth`. -/
structure DateTime where
  epochMs : Int
  year : Int
  month0 : Nat
  day : Nat
  hour : Nat
  minute : Nat
  dayOfWeek : Nat
deriving DecidableEq, Repr

structure Reminder where
  id : String
  /-- `"once"` or `"cron"`; modelled as the runtime string the code compares. -/
  type : String
  expression : String
  description : String
  payload : String
  createdAt : String
  /-- `lastFired` is persisted as `now.toISOString()` and re-parsed with
  `new Date(...)`, which round-trips exactly; we store the value itself. -/
  lastFired : Option DateTime
deriving DecidableEq, Repr

structure FiredReminder where
  reminder : Reminder
  firedAt : DateTime
deriving DecidableEq, Repr

/-- `matchesCronField` restricted to comma-free fields (the branches of the
source other than the comma branch, in source order). -/
def matchesCronSimple (field : String) (value : Nat) : Bool :=
  if field = "*" then true
  else if strStartsWith field "*/" then
    match jsParseInt (strDrop field 2) with
    | none => false
    | some i =>
      -- JS `value % interval === 0`; `% 0` and `% NaN` are `NaN`, never 0.
      if i = 0 then false else (value : Int).emod i = 0
  else if field.toList.contains '-' then
    match strSplitOnChar field '-' with
    | p0 :: p1 :: _ =>
      match jsParseInt p0, jsParseInt p1 with
      | some a, some b => decide (a ≤ (value : Int) ∧ (value : Int) ≤ b)
      | _, _ => false
    | _ => false
  else jsParseInt field = some (value : Int)

/-- src/reminders.ts `matchesCronField`.  The source recurses on the
(trimmed, hence comma-free) parts of a comma list; on comma-free input it
coincides with `matchesCronSimple`, which is what the recursive call
reduces to. -/
def matchesCronField (field : String) (value : Nat) : Bool :=
  if field = "*" then true
  else if strStartsWith field "*/" then
    match jsParseInt (strDrop field 2) with
    | none => false
    | some i => if i = 0 then false else (value : Int).emod i = 0
  else if field.toList.contains ',' then
    (strSplitOnChar field ',').any (fun f => matchesCronSimple (strTrim f) value)
  else if field.toList.contains '-' then
    match strSplitOnChar field '-' with
    | p0 :: p1 :: _ =>
      match jsParseInt p0, jsParseInt p1 with
      | some a, some b => decide (a ≤ (value : Int) ∧ (value : Int) ≤ b)
      | _, _ => false
    | _ => false
  else jsParseInt field = some (value : Int)

/-- The five positional field checks of `shouldCronFire`. -/
def cronMatches (expression : String) (now : DateTime) : Bool :=
  match splitWs expression with
  | [minF, hourF, domF, monF, dowF] =>
    matchesCronField minF now.minute &&
    matchesCronField hourF now.hour &&
    matchesCronField domF now.day &&
    matchesCronField monF (now.month0 + 1) &&
    matchesCronField dowF now.dayOfWeek
  | _ => false

/-- The "same UTC minute" comparison of `shouldCronFire`. -/
def sameMinuteB (a b : DateTime) : Bool :=
  a.year = b.year && a.month0 = b.month0 && a.day = b.day &&
    a.hour = b.hour && a.minute = b.minute

/-- src/reminders.ts `shouldCronFire`: five field checks, then the
same-minute guard against `lastFired`. -/
def shouldCronFire (expression : String) (lastFired : Option DateTime)
    (now : DateTime) : Bool :=
  cronMatches expression now &&
    (match lastFired with
     | none => true
     | some lf => !sameMinuteB lf now)

structure CheckResult where
  fired : List FiredReminder
  updated : List Reminder
  /-- Whether `saveReminders` is called (the source's `changed` flag). -/
  wrote : Bool
deriving DecidableEq, Repr

/-- `new Date(r.expression) <= now` for a one-shot reminder: `Date`
comparison is epoch comparison, and an Invalid Date (`none`) compares
false. -/
def onceDue (parseDate : String → Option DateTime) (expression : String)
    (now : DateTime) : Bool :=
  match parseDate expression with
  | some fireTime => fireTime.epochMs ≤ now.epochMs
  | none => false

/-- src/reminders.ts `checkReminders`, parametrised by the external JS
`Date`-string parser (`none` models an Invalid Date, whose comparisons are
all false).  The source pushes the reminder object and then mutates its
`lastFired`; the pushed reference aliases the mutated object, so the fired
entry carries the updated `lastFired`. -/
def checkReminders (parseDate : String → Option DateTime) (now : DateTime) :
    List Reminder → CheckResult
  | [] => ⟨[], [], false⟩
  | r :: rest =>
    let tail := checkReminders parseDate now rest
    if r.type = "once" then
      if onceDue parseDate r.expression now then
        ⟨⟨r, now⟩ :: tail.fired, tail.updated, true⟩
      else ⟨tail.fired, r :: tail.updated, tail.wrote⟩
    else if r.type = "cron" then
      if shouldCronFire r.expression r.lastFired now then
        let r' := { r with lastFired := some now }
        ⟨⟨r', now⟩ :: tail.fired, r' :: tail.updated, true⟩
      else ⟨tail.fired, r :: tail.updated, tail.wrote⟩
    else ⟨tail.fired, r :: tail.updated, tail.wrote⟩

/-- Sequential `check()` invocations at the given times, threading the
persisted list; returns the final list and all fired entries in order. -/
def runChecks (parseDate : String → Option DateTime) :
    List Reminder → List DateTime → List Reminder × List FiredReminder
  | l, [] => (l, [])
  | l, t :: ts =>
    let c := checkReminders parseDate t l
    let (l', fs) := runChecks parseDate c.updated ts
    (l', c.fired ++ fs)

/-- The grammar the spec gives for a single cron field:
`*`, `N`, `N-M`, `*/N`, or a comma list of those. -/
def wellFormedAtom (f : String) : Bool :=
  f = "*" ||
  (f.length > 0 && f.toList.all (fun c => c.isDigit)) ||
  (match strSplitOnChar f '-' with
   | [a, b] =>
     a.length > 0 && a.toList.all (fun c => c.isDigit) &&
     b.length > 0 && b.toList.all (fun c => c.isDigit)
   | _ => false) ||
  (strStartsWith f "*/" &&
    (strDrop f 2).length > 0 && (strDrop f 2).toList.all (fun c => c.isDigit))

/-- Modelled from the spec: a valid 5-field cron expression (fields drawn
from `*`, `N`, `N-M`, `*/N`, and comma lists of those). -/
def wellFormedCronExpr (expression : String) : Bool :=
  match splitWs expression with
  | [a, b, c, d, e] =>
    [a, b, c, d, e].all (fun f => (strSplitOnChar f ',').all wellFormedAtom)
  | _ => false

end Rem

/-! # HNSW index (src/search/hnsw.ts) -/

namespace HNSW

/-- Vectors (JS `number[]`, idealised over `ℚ`). -/
abbrev Vec := List ℚ

/-- src/search/hnsw.ts `HNSWNode`; `neighbors` is the `Map(level → Set ids)`
as an insertion-ordered association list of duplicate-free lists. -/
structure HNSWNode where
  id : String
  vector : Vec
  neighbors : List (Nat × List String)
deriving DecidableEq, Repr

abbrev Nodes := List (String × HNSWNode)

structure HNSWIndex where
  nodes : Nodes
  dimensions : Nat
  maxLevel : Nat
  entryPoint : Option String
deriving DecidableEq, Repr

/-- `M = 16`, max connections per layer. -/
def hnswM : Nat := 16

/-- `efConstruction = 200`. -/
def efConstruction : Nat := 200

def emptyIndex (dimensions : Nat) : HNSWIndex :=
  ⟨[], dimensions, 0, none⟩

/-- The level-`l` neighbor set of a node (`neighbors.get(l)` or empty). -/
def nodeNbrs (n : HNSWNode) (l : Nat) : List String :=
  (mget n.neighbors l).getD []

/-- `node.neighbors.get(l)!.add(x)`, creating the level set if missing
(the source creates it explicitly on the neighbor side and has it
pre-initialised on the new-node side). -/
def adjAdd (n : HNSWNode) (l : Nat) (x : String) : HNSWNode :=
  { n with neighbors := mset n.neighbors l (sadd (nodeNbrs n l) x) }

/-- `if (n.neighbors.has(l)) n.neighbors.get(l)!.delete(x)`. -/
def adjErase (n : HNSWNode) (l : Nat) (x : String) : HNSWNode :=
  match mget n.neighbors l with
  | none => n
  | some s => { n with neighbors := mset n.neighbors l (serase s x) }

/-- Apply `f` to the node stored under `k` (all source call sites hold a
reference obtained from the map, so the key is present). -/
def updNode (m : Nodes) (k : String) (f : HNSWNode → HNSWNode) : Nodes :=
  match mget m k with
  | none => m
  | some n => mset m k (f n)

/-- src `distance`: cosine distance `1 − dot/(√‖a‖²·√‖b‖²)`, with
`Math.sqrt` abstracted as the parameter `sq`.  (JS pairs `a[i]` with
`b[i]`; both vectors have the index dimension at every call site, so
`zipWith` is exact.) -/
def distance (sq : ℚ → ℚ) (a b : Vec) : ℚ :=
  let dot := (List.zipWith (fun x y => x * y) a b).foldl (· + ·) 0
  let normA := (a.map (fun x => x * x)).foldl (· + ·) 0
  let normB := (b.map (fun x => x * x)).foldl (· + ·) 0
  1 - dot / (sq normA * sq normB)

/-- `distance(query, nodes.get(id)!.vector)`; the `none` branch is
unreachable at every call site (the id was read from the map). -/
def distTo (sq : ℚ → ℚ) (m : Nodes) (v : Vec) (id : String) : ℚ :=
  match mget m id with
  | some n => distance sq v n.vector
  | none => 0

/-- One pass of the `greedySearch` inner `for` loop: scan the captured
neighbor list, moving to each strictly closer neighbor; the flag is the
source's `changed`. -/
def greedyPass (sq : ℚ → ℚ) (m : Nodes) (v : Vec) :
    List String → (String × ℚ) × Bool → (String × ℚ) × Bool
  | [], st => st
  | nid :: rest, ((c, d), ch) =>
    match mget m nid with
    | some n =>
      let dn := distance sq v n.vector
      if dn < d then greedyPass sq m v rest ((nid, dn), true)
      else greedyPass sq m v rest ((c, d), ch)
    | none => greedyPass sq m v rest ((c, d), ch)

/-- The `while` loop of `greedySearch`; `Math.random`-free and strictly
decreasing in distance, so `fuel = |nodes| + 1` exceeds the number of
possible improvements and the fuel-out branch is unreachable. -/
def greedyLoop (sq : ℚ → ℚ) (m : Nodes) (v : Vec) (level : Nat) :
    Nat → String × ℚ → String × ℚ
  | 0, st => st
  | fuel + 1, (c, d) =>
    let nbrs := match mget m c with
      | some n => nodeNbrs n level
      | none => []
    let (st', ch) := greedyPass sq m v nbrs ((c, d), false)
    if ch then greedyLoop sq m v level fuel st' else st'

/-- src `greedySearch`. -/
def greedySearch (sq : ℚ → ℚ) (m : Nodes) (v : Vec) (start : String)
    (level : Nat) : String × ℚ :=
  greedyLoop sq m v level (m.length + 1) (start, distTo sq m v start)

/-- The body of `searchLayer`'s neighbor loop: thread
`(visited, candidates, results)` over the captured neighbor list.
`furthest` is the value captured before the loop, exactly as in the
source (it is not refreshed while results shrink). -/
def exploreNbrs (sq : ℚ → ℚ) (m : Nodes) (v : Vec) (ef : Nat)
    (furthest : ℚ) :
    List String → List String × List (String × ℚ) × List (String × ℚ) →
    List String × List (String × ℚ) × List (String × ℚ)
  | [], st => st
  | nid :: rest, (visited, cand, res) =>
    if nid ∈ visited then exploreNbrs sq m v ef furthest rest (visited, cand, res)
    else
      let visited' := visited ++ [nid]
      match mget m nid with
      | none => exploreNbrs sq m v ef furthest rest (visited', cand, res)
      | some n =>
        let dn := distance sq v n.vector
        if res.length < ef || dn < furthest then
          let cand' := cand ++ [(nid, dn)]
          let res' := res ++ [(nid, dn)]
          let res'' :=
            if res'.length > ef then (sortBy (fun p => p.2) res').dropLast
            else res'
          exploreNbrs sq m v ef furthest rest (visited', cand', res'')
        else exploreNbrs sq m v ef furthest rest (visited', cand, res)

/-- The `while (candidates.length > 0)` loop of `searchLayer`.  Each
iteration pops one candidate and every push is guarded by the visited
set, so `fuel = |nodes| + 1` iterations always reach the natural exit. -/
def searchLayerLoop (sq : ℚ → ℚ) (m : Nodes) (v : Vec) (ef : Nat)
    (level : Nat) :
    Nat → List String × List (String × ℚ) × List (String × ℚ) →
    List (String × ℚ)
  | 0, (_, _, res) => sortBy (fun p => p.2) res
  | fuel + 1, (visited, cand, res) =>
    match sortBy (fun p => p.2) cand with
    | [] => sortBy (fun p => p.2) res
    | curr :: candRest =>
      let resSorted := sortBy (fun p => p.2) res
      let furthest := (resSorted.getLast?.map (fun p => p.2)).getD 0
      if curr.2 > furthest then sortBy (fun p => p.2) resSorted
      else
        let nbrs := match mget m curr.1 with
          | some n => nodeNbrs n level
          | none => []
        let st' := exploreNbrs sq m v ef furthest nbrs (visited, candRest, resSorted)
        searchLayerLoop sq m v ef level fuel st'

/-- src `searchLayer`. -/
def searchLayer (sq : ℚ → ℚ) (m : Nodes) (v : Vec) (entry : String)
    (ef : Nat) (level : Nat) : List (String × ℚ) :=
  let entryDist := distTo sq m v entry
  searchLayerLoop sq m v ef level (m.length + 1)
    ([entry], [(entry, entryDist)], [(entry, entryDist)])

/-- src `pruneConnections`. -/
def pruneConnections (sq : ℚ → ℚ) (m : Nodes) (nid : String) (l : Nat) :
    Nodes :=
  match mget m nid with
  | none => m
  | some node =>
    let nbrs := nodeNbrs node l
    if nbrs.length ≤ hnswM then m
    else
      let scored := nbrs.map (fun x =>
        (x, match mget m x with
            | some nx => distance sq node.vector nx.vector
            | none => 0))
      let keep := ((sortBy (fun p => p.2) scored).take hnswM).map (fun p => p.1)
      let removed := nbrs.filter (fun x => x ∉ keep)
      let m₁ := updNode m nid (fun n =>
        { n with neighbors := mset n.neighbors l ((nodeNbrs n l).filter (fun x => x ∈ keep)) })
      removed.foldl (fun ms r => updNode ms r (fun n => adjErase n l nid)) m₁

/-- The body of the insert connection loop for one selected neighbor:
add the bidirectional edge, then prune the neighbor if over capacity. -/
def connectNeighbor (sq : ℚ → ℚ) (m : Nodes) (id : String) (l : Nat)
    (nbId : String) : Nodes :=
  let m₁ := updNode m id (fun n => adjAdd n l nbId)
  let m₂ := updNode m₁ nbId (fun n => adjAdd n l id)
  let sz := match mget m₂ nbId with
    | some n => (nodeNbrs n l).length
    | none => 0
  if sz > hnswM then pruneConnections sq m₂ nbId l else m₂

/-- One iteration of insert's per-layer loop. -/
def insertLayerStep (sq : ℚ → ℚ) (v : Vec) (id : String)
    (st : Nodes × String) (l : Nat) : Nodes × String :=
  let (m, curr) := st
  let res := searchLayer sq m v curr efConstruction l
  let selected := res.take hnswM
  let m' := selected.foldl (fun ms nb => connectNeighbor sq ms id l nb.1) m
  let curr' := match res with
    | [] => curr
    | r :: _ => r.1
  (m', curr')

/-- src `insert`, with the geometric level sampling (`Math.random`)
replaced by the explicit `level` argument.  Rejects wrong-dimension
vectors with the source's error. -/
def insert (sq : ℚ → ℚ) (idx : HNSWIndex) (level : Nat) (id : String)
    (v : Vec) : Except String HNSWIndex :=
  if v.length ≠ idx.dimensions then .error "Vector dimension mismatch"
  else
    let node : HNSWNode :=
      ⟨id, v, (List.range (level + 1)).map (fun l => (l, []))⟩
    let m₀ := mset idx.nodes id node
    match idx.entryPoint with
    | none =>
      .ok { idx with nodes := m₀, entryPoint := some id, maxLevel := level }
    | some ep =>
      -- greedy descent from maxLevel down to level+1
      let descLevels := (((List.range (idx.maxLevel + 1)).drop (level + 1))).reverse
      let start : String × ℚ := (ep, distTo sq m₀ v ep)
      let (c₁, _) := descLevels.foldl (fun (st : String × ℚ) l =>
        let (c, d) := st
        let best := greedySearch sq m₀ v c l
        if best.2 < d then best else (c, d)) start
      -- connect at layers min(level, maxLevel) .. 0
      let layers := (List.range (min level idx.maxLevel + 1)).reverse
      let (m₁, _) := layers.foldl (insertLayerStep sq v id) (m₀, c₁)
      if level > idx.maxLevel then
        .ok { idx with nodes := m₁, maxLevel := level, entryPoint := some id }
      else
        .ok { idx with nodes := m₁ }

/-- src `delete`: remove the node from every neighbor's adjacency listed in
its own map, remove the node, and repair the entry point. -/
def deleteNode (idx : HNSWIndex) (id : String) : HNSWIndex × Bool :=
  match mget idx.nodes id with
  | none => (idx, false)
  | some node =>
    let m₁ := node.neighbors.foldl (fun ms (e : Nat × List String) =>
      e.2.foldl (fun ms' nbId => updNode ms' nbId (fun n => adjErase n e.1 id)) ms)
      idx.nodes
    let m₂ := merase m₁ id
    if idx.entryPoint = some id then
      match m₂ with
      | [] => ({ idx with nodes := [], entryPoint := none, maxLevel := 0 }, true)
      | (k, n) :: _ =>
        -- `Math.max(...keys)`; every node's map holds at least level 0
        let ml := (n.neighbors.map (fun e => e.1)).foldl max 0
        ({ idx with nodes := m₂, entryPoint := some k, maxLevel := ml }, true)
    else ({ idx with nodes := m₂ }, true)

/-- An insert (with its sampled level) or a delete. -/
inductive HOp where
  | ins (level : Nat) (id : String) (v : Vec)
  | del (id : String)
deriving DecidableEq, Repr

/-- Apply one operation; a dimension-mismatch insert throws in the source
before touching any state, leaving the index unchanged. -/
def applyOp (sq : ℚ → ℚ) (idx : HNSWIndex) : HOp → HNSWIndex
  | .ins level id v =>
    match insert sq idx level id v with
    | .ok idx' => idx'
    | .error _ => idx
  | .del id => (deleteNode idx id).1

def runOps (sq : ℚ → ℚ) (idx : HNSWIndex) (ops : List HOp) : HNSWIndex :=
  ops.foldl (applyOp sq) idx

/-- The level-`l` neighbor set of node `b` in a node map. -/
def nbrsM (m : Nodes) (b : String) (l : Nat) : List String :=
  match mget m b with
  | some n => nodeNbrs n l
  | none => []

/-- The level-`l` neighbor set of node `a` in the index. -/
def nbrsOf (idx : HNSWIndex) (a : String) (l : Nat) : List String :=
  nbrsM idx.nodes a l

def keys (m : Nodes) : List String := m.map (fun p => p.1)

/-- Bidirectionality on a node map. -/
def SymM (m : Nodes) : Prop :=
  ∀ a b l, a ∈ nbrsM m b l → b ∈ nbrsM m a l

/-- Every referenced neighbor is a stored node. -/
def ClosedM (m : Nodes) : Prop :=
  ∀ a b l, a ∈ nbrsM m b l → a ∈ keys m

/-- Each node's per-level map has unique level keys (JS `Map`). -/
def NodupAdjM (m : Nodes) : Prop :=
  ∀ k n, mget m k = some n → (n.neighbors.map (fun e => e.1)).Nodup

/-- Bidirectionality: `A ∈ neighbors(B, ℓ)` iff `B ∈ neighbors(A, ℓ)`. -/
def Sym (idx : HNSWIndex) : Prop := SymM idx.nodes

/-- A non-null entry point is a stored node. -/
def EntryOk (idx : HNSWIndex) : Prop :=
  ∀ e, idx.entryPoint = some e → e ∈ keys idx.nodes

/-- The graph invariants maintained by the public operations. -/
def Inv (idx : HNSWIndex) : Prop :=
  SymM idx.nodes ∧ ClosedM idx.nodes ∧ EntryOk idx ∧
    (keys idx.nodes).Nodup ∧ NodupAdjM idx.nodes

/-- A run of operations in which every insert uses an id that is not
currently stored (the claim's amendment excludes duplicate-id inserts,
which the source handles by overwriting the map slot only). -/
def freshRun (sq : ℚ → ℚ) (idx : HNSWIndex) : List HOp → Bool
  | [] => true
  | op :: rest =>
    (match op with
     | .ins _ id _ => !((keys idx.nodes).contains id)
     | .del _ => true) && freshRun sq (applyOp sq idx op) rest

end HNSW

/-! # Index service search (src/search/durable-object.ts, `handleSearch`) -/

namespace DObj

/-- A `{id, score}` search result. -/
structure SR where
  id : String
  score : ℚ
deriving DecidableEq, Repr

/-- `30 * 24 * 60 * 60 * 1000` ms. -/
def halfLifeMs : ℚ := 30 * 24 * 60 * 60 * 1000

/-- The adjusted score of one raw result:
`score * (0.3 + 0.7 * 0.5^(age/halfLife))` with `age = now − updated_at`
and `updatedAt ?? now` when the row is missing.  `pow05` abstracts the JS
`0.5 ** x`. -/
def adjScore (pow05 : ℚ → ℚ) (updatedAtOf : String → Option Int) (now : Int)
    (r : SR) : ℚ :=
  let updatedAt := (updatedAtOf r.id).getD now
  let ageMs : Int := now - updatedAt
  let timeDecay := pow05 ((ageMs : ℚ) / halfLifeMs)
  r.score * (3/10 + 7/10 * timeDecay)

/-- `handleSearch` with `timeWeight = true`: ask the HNSW index for
`limit * 3` raw results, adjust, sort descending by adjusted score
(`(a, b) => b.adjustedScore - a.adjustedScore`, stable), keep `limit`,
and return `{id, score: adjustedScore}`.  `searchFn` is the call
`this.index.search(vector, n)`. -/
def handleSearchTW (pow05 : ℚ → ℚ) (updatedAtOf : String → Option Int)
    (now : Int) (searchFn : Nat → List SR) (limit : Nat) : List SR :=
  let rawResults := searchFn (limit * 3)
  let scored := rawResults.map (fun r => (r, adjScore pow05 updatedAtOf now r))
  let reranked := sortBy (fun p => -p.2) scored
  (reranked.take limit).map (fun p => ⟨p.1.id, p.2⟩)

end DObj

/-! # Conversation indexer (src/conversations.ts) -/

namespace Conv

/-- One assistant content block (`{type, text?}`). -/
structure ContentBlockT where
  type : String
  text : Option String
deriving DecidableEq, Repr

/-- A message's `content`: a plain string or an array of content blocks. -/
inductive MsgContent where
  | str (s : String)
  | blocks (bs : List ContentBlockT)
deriving DecidableEq, Repr

structure OCMessage where
  role : String
  content : MsgContent
  timestamp : Option String
deriving DecidableEq, Repr

structure OCSession where
  messages : List OCMessage
  createdAt : Option String
deriving DecidableEq, Repr

structure ConversationExchange where
  id : String
  sessionId : String
  project : String
  userPrompt : String
  assistantResponse : String
  timestamp : String
  messageIndex : Nat
deriving DecidableEq, Repr

/-- src `isToolResult`. -/
def isToolResult (content : String) : Bool :=
  containsSubstr content "<tool_result>" ||
  containsSubstr content "tool_use_id" ||
  strStartsWith content "\x7b\"type\":\"tool_result\""

/-- src `isSystemContext`. -/
def isSystemContext (content : String) : Bool :=
  strStartsWith content "<current_time>" ||
  strStartsWith content "<system-reminder>" ||
  strStartsWith content "# Agent Context" ||
  containsSubstr content "<state_files>" ||
  containsSubstr content "<context_status>" ||
  content.length < 5

def userMarker : String := "\nUser message: "

/-- src `extractUserText`: `content.includes(marker)` followed by the
regex `/\nUser message: (.+)$/s`, whose leftmost match captures everything
after the *first* marker occurrence; it fails only when nothing follows
that occurrence, in which case the trimmed whole content is returned. -/
def extractUserText (content : String) : String :=
  match afterFirstL content.toList userMarker.toList with
  | some suffix =>
    if suffix ≠ [] then strTrim (String.mk suffix) else strTrim content
  | none => strTrim content

/-- The text selected by `extractAssistantText` before its truncation:
the string itself, or the first `text` block with truthy text. -/
def assistantRawText : MsgContent → String
  | .str s => s
  | .blocks bs =>
    match bs.find? (fun b => b.type == "text" && jsTruthy b.text) with
    | some b => b.text.getD ""
    | none => ""

/-- src `extractAssistantText`: string content and block text are both cut
to their first 1000 characters (`slice(0, 1000)`). -/
def extractAssistantText : MsgContent → String
  | .str s => strTake s 1000
  | .blocks bs =>
    match bs.find? (fun b => b.type == "text" && jsTruthy b.text) with
    | some b => strTake (b.text.getD "") 1000
    | none => ""

/-- `msg.timestamp || sessionData.createdAt || new Date().toISOString()`
(JS `||`: the empty string is falsy). -/
def firstTruthy (a b : Option String) (dflt : String) : String :=
  match a with
  | some s => if s ≠ "" then s else match b with
    | some t => if t ≠ "" then t else dflt
    | none => dflt
  | none => match b with
    | some t => if t ≠ "" then t else dflt
    | none => dflt

structure CurrentUser where
  content : String
  timestamp : String
  index : Nat
deriving DecidableEq, Repr

/-- The message walk of `parseOpenCodeSession`, threading index `i` and the
pending eligible user message. -/
def parseLoop (sid proj : String) (createdAt : Option String)
    (nowIso : String) :
    List OCMessage → Nat → Option CurrentUser → List ConversationExchange
  | [], _, _ => []
  | m :: rest, i, cu =>
    if m.role = "user" then
      match m.content with
      | .str c =>
        if isToolResult c || isSystemContext c then
          parseLoop sid proj createdAt nowIso rest (i + 1) cu
        else
          parseLoop sid proj createdAt nowIso rest (i + 1)
            (some ⟨extractUserText c, firstTruthy m.timestamp createdAt nowIso, i⟩)
      | .blocks _ =>
        -- `typeof msg.content === "string"` fails: nothing happens
        parseLoop sid proj createdAt nowIso rest (i + 1) cu
    else if m.role = "assistant" then
      match cu with
      | some u =>
        let assistantText := extractAssistantText m.content
        let pushed :=
          if u.content ≠ "" ∧ assistantText ≠ "" then
            [⟨sid ++ "-" ++ toString u.index, sid, proj,
              strTake u.content 2000, strTake assistantText 2000,
              u.timestamp, u.index⟩]
          else []
        pushed ++ parseLoop sid proj createdAt nowIso rest (i + 1) none
      | none => parseLoop sid proj createdAt nowIso rest (i + 1) none
    else parseLoop sid proj createdAt nowIso rest (i + 1) cu

/-- src `parseOpenCodeSession` (with `new Date().toISOString()` passed in
as `nowIso`). -/
def parseOpenCodeSession (sid proj : String) (sess : OCSession)
    (nowIso : String) : List ConversationExchange :=
  parseLoop sid proj sess.createdAt nowIso sess.messages 0 none

end Conv

/-! # Reflection tool executor (src/reflection/tool-executor.ts) -/

namespace Reflect

/-- The closed union of auto-fix kinds. -/
inductive FixType where
  | typo
  | whitespace
  | newline
  | duplicate
  | formatting
deriving DecidableEq, Repr

/-- What one `executeAutoApply` call did: the returned success flag and
error, whether `storage.write` ran (and with what content), and whether the
fix was recorded in `context.autoAppliedFixes`. -/
structure AutoApplyOutcome where
  success : Bool
  errorMsg : Option String
  written : Option String
  recorded : Bool
deriving DecidableEq, Repr

/-- src `executeAutoApply`, as a function of the file read for the target
path (`none` = not found) and the optional `oldText`/`newText` arguments. -/
def executeAutoApply (file : Option String) (fixType : FixType)
    (oldText newText : Option String) : AutoApplyOutcome :=
  match file with
  | none => ⟨false, some "File not found", none, false⟩
  | some content =>
    let finishWith := fun (newContent : String) =>
      (⟨true, none, if newContent ≠ content then some newContent else none,
        true⟩ : AutoApplyOutcome)
    match fixType with
    | .typo | .whitespace =>
      if !(jsTruthy oldText && jsTruthy newText) then
        ⟨false, some "oldText and newText required", none, false⟩
      else if !(containsSubstr content (oldText.getD "")) then
        ⟨false, some "oldText not found in file", none, false⟩
      else finishWith (replaceFirst content (oldText.getD "") (newText.getD ""))
    | .newline => finishWith (strTrimEnd content ++ "\n")
    | .duplicate =>
      if !(jsTruthy oldText) then
        ⟨false, some "oldText required for duplicate fix", none, false⟩
      else finishWith (replaceFirst content (oldText.getD "") (newText.getD ""))
    | .formatting =>
      -- `if (args.oldText && args.newText !== undefined)`; otherwise the
      -- content is left as is and the call still succeeds and records.
      if jsTruthy oldText && newText ≠ none then
        finishWith (replaceFirst content (oldText.getD "") (newText.getD ""))
      else finishWith content

end Reflect

/-! # Worker fetch routing (src/index.ts) and auth -/

namespace Web

structure AuthResult where
  authorized : Bool
  errorMsg : Option String
deriving DecidableEq, Repr

/-- Modelled from the spec: `src/auth.ts` is not in the snapshot (only its
unit tests import it).  Per §6 of the spec and the tests, `validateAuth`
sees only the request headers and the configured secret: missing header,
non-`Bearer` scheme, empty token, unset `MEMORY_AUTH_TOKEN`, and token
mismatch are rejected; the exact `Bearer <secret>` header is accepted. -/
def validateAuth (authHeader : Option String) (secret : String) : AuthResult :=
  match authHeader with
  | none => ⟨false, some "Missing Authorization header"⟩
  | some h =>
    if !(strStartsWith h "Bearer ") then
      ⟨false, some "Invalid Authorization header format"⟩
    else
      let token := strDrop h 7
      if token = "" then ⟨false, some "Empty token"⟩
      else if secret = "" then ⟨false, some "MEMORY_AUTH_TOKEN not set"⟩
      else if token = secret then ⟨true, none⟩
      else ⟨false, some "Invalid token"⟩

/-- The body shapes the fetch handler can answer with. -/
inductive HttpBody where
  | corsPreflight
  | unauthorized (msg : String)
  | healthOk (version : String)
  | mcp
  | notFound
deriving DecidableEq, Repr

structure HttpResponse where
  status : Nat
  body : HttpBody
deriving DecidableEq, Repr

/-- src/index.ts `fetch` routing: OPTIONS preflight, then `validateAuth`
for every remaining request, then `/mcp` (POST), then `/health`, then 404.
The `/health` branch answers `{status:"ok", version:"0.1.0"}`. -/
def workerFetch (method path : String) (authHeader : Option String)
    (secret : String) : HttpResponse :=
  if method = "OPTIONS" then ⟨200, .corsPreflight⟩
  else
    let authResult := validateAuth authHeader secret
    if !authResult.authorized then
      ⟨401, .unauthorized (authResult.errorMsg.getD "")⟩
    else if path = "/mcp" ∧ method = "POST" then ⟨200, .mcp⟩
    else if path = "/health" then ⟨200, .healthOk "0.1.0"⟩
    else ⟨404, .notFound⟩

end Web



/-! # Lemmas about the reminder scheduler -/

namespace Rem

/-- Every fired entry's reminder id comes from the list. -/
theorem fired_id_mem (pd : String → Option DateTime) (now : DateTime) :
    ∀ (l : List Reminder) (f : FiredReminder),
      f ∈ (checkReminders pd now l).fired →
        f.reminder.id ∈ l.map (fun y => y.id)
  | [], _, hf => by simp [checkReminders] at hf
  | x :: rest, f, hf => by
    have ih := fired_id_mem pd now rest f
    simp only [checkReminders] at hf
    by_cases h1 : x.type = "once"
    · rw [if_pos h1] at hf
      by_cases hle : onceDue pd x.expression now
      · rw [if_pos hle] at hf
        rcases List.mem_cons.mp hf with h | h
        · subst h; simp
        · exact List.mem_cons_of_mem _ (ih h)
      · rw [if_neg hle] at hf
        exact List.mem_cons_of_mem _ (ih hf)
    · rw [if_neg h1] at hf
      by_cases h2 : x.type = "cron"
      · rw [if_pos h2] at hf
        by_cases hxf : shouldCronFire x.expression x.lastFired now
        · rw [if_pos hxf] at hf
          rcases List.mem_cons.mp hf with h | h
          · subst h; simp
          · exact List.mem_cons_of_mem _ (ih h)
        · rw [if_neg hxf] at hf
          exact List.mem_cons_of_mem _ (ih hf)
      · rw [if_neg h2] at hf
        exact List.mem_cons_of_mem _ (ih hf)

/-- One `check()` leaves the id sequence a sublist of the input's. -/
theorem check_ids_sublist (pd : String → Option DateTime) (now : DateTime) :
    ∀ l : List Reminder,
      ((checkReminders pd now l).updated.map (fun r => r.id)).Sublist
        (l.map (fun r => r.id))
  | [] => by simp [checkReminders]
  | r :: rest => by
    have ih := check_ids_sublist pd now rest
    simp only [checkReminders]
    by_cases h1 : r.type = "once"
    · rw [if_pos h1]
      by_cases hle : onceDue pd r.expression now
      · rw [if_pos hle]
        simpa using ih.cons r.id
      · rw [if_neg hle]
        simpa using ih.cons₂ r.id
    · rw [if_neg h1]
      by_cases h2 : r.type = "cron"
      · rw [if_pos h2]
        by_cases hf : shouldCronFire r.expression r.lastFired now
        · rw [if_pos hf]
          simpa using ih.cons₂ r.id
        · rw [if_neg hf]
          simpa using ih.cons₂ r.id
      · rw [if_neg h2]
        simpa using ih.cons₂ r.id

/-- In one `check()` over a list with unique ids containing the cron
reminder `r`: exactly one fired entry carries `r.id` when
`shouldCronFire` holds and none otherwise, and `r` survives in `updated`,
with `lastFired := now` exactly when it fired. -/
theorem cron_check_spec (pd : String → Option DateTime) (now : DateTime)
    (r : Reminder) (hcron : r.type = "cron") :
    ∀ l : List Reminder, r ∈ l → (l.map (fun x => x.id)).Nodup →
      ((checkReminders pd now l).fired.countP
          (fun f => f.reminder.id = r.id) =
        (if shouldCronFire r.expression r.lastFired now then 1 else 0)) ∧
      ((if shouldCronFire r.expression r.lastFired now then
          { r with lastFired := some now } else r) ∈
        (checkReminders pd now l).updated)
  | [], hm, _ => absurd hm (List.not_mem_nil r)
  | x :: rest, hm, hnd => by
    have hndr : (rest.map (fun y => y.id)).Nodup := (List.nodup_cons.mp hnd).2
    have hxid : x.id ∉ rest.map (fun y => y.id) := (List.nodup_cons.mp hnd).1
    rcases List.mem_cons.mp hm with hrx | hrrest
    · -- r is the head; no tail entry can share its id
      subst hrx
      have tail_zero :
          (checkReminders pd now rest).fired.countP
            (fun f => f.reminder.id = r.id) = 0 := by
        rw [List.countP_eq_zero]
        intro f hf
        simp only [decide_eq_true_eq]
        intro hcontra
        exact hxid (hcontra ▸ fired_id_mem pd now rest f hf)
      have honce : ¬r.type = "once" := by rw [hcron]; decide
      simp only [checkReminders]
      rw [if_neg honce, if_pos hcron]
      by_cases hf : shouldCronFire r.expression r.lastFired now
      · rw [if_pos hf]
        refine ⟨?_, ?_⟩
        · rw [if_pos hf, List.countP_cons, tail_zero]
          simp
        · rw [if_pos hf]
          exact List.mem_cons_self _ _
      · rw [if_neg hf]
        refine ⟨?_, ?_⟩
        · rw [if_neg hf]
          exact tail_zero
        · rw [if_neg hf]
          exact List.mem_cons_self _ _
    · -- r is in the tail; the head's id differs from r's
      have hne : x.id ≠ r.id := by
        intro h
        exact hxid (h ▸ List.mem_map_of_mem (fun y => y.id) hrrest)
      have ih := cron_check_spec pd now r hcron rest hrrest hndr
      simp only [checkReminders]
      by_cases h1 : x.type = "once"
      · rw [if_pos h1]
        by_cases hle : onceDue pd x.expression now
        · rw [if_pos hle]
          refine ⟨?_, ih.2⟩
          rw [List.countP_cons, ih.1]
          simp [hne]
        · rw [if_neg hle]
          exact ⟨ih.1, List.mem_cons_of_mem _ ih.2⟩
      · rw [if_neg h1]
        by_cases h2 : x.type = "cron"
        · rw [if_pos h2]
          by_cases hxf : shouldCronFire x.expression x.lastFired now
          · rw [if_pos hxf]
            refine ⟨?_, List.mem_cons_of_mem _ ih.2⟩
            rw [List.countP_cons, ih.1]
            simp [hne]
          · rw [if_neg hxf]
            exact ⟨ih.1, List.mem_cons_of_mem _ ih.2⟩
        · rw [if_neg h2]
          exact ⟨ih.1, List.mem_cons_of_mem _ ih.2⟩

end Rem

namespace Rem

/-- A cron reminder that is present and never satisfies `shouldCronFire`
at any of the invocation times contributes no fired entry over the whole
run. -/
theorem cron_no_fire_run (pd : String → Option DateTime) (r : Reminder)
    (hcron : r.type = "cron") :
    ∀ (ts : List DateTime) (l : List Reminder), r ∈ l →
      (l.map (fun x => x.id)).Nodup →
      (∀ t' ∈ ts, shouldCronFire r.expression r.lastFired t' = false) →
      (runChecks pd l ts).2.countP (fun f => f.reminder.id = r.id) = 0
  | [], l, _, _, _ => by simp [runChecks]
  | t :: ts, l, hm, hnd, hns => by
    have spec := cron_check_spec pd t r hcron l hm hnd
    have hf : shouldCronFire r.expression r.lastFired t = false := hns t (by simp)
    rw [hf] at spec
    simp only [if_neg (by simp : ¬False = True), Bool.false_eq_true,
      if_false] at spec
    have hnd' : ((checkReminders pd t l).updated.map (fun x => x.id)).Nodup :=
      (check_ids_sublist pd t l).nodup hnd
    have ih := cron_no_fire_run pd r hcron ts (checkReminders pd t l).updated
      spec.2 hnd' (fun t' ht' => hns t' (List.mem_cons_of_mem _ ht'))
    simp only [runChecks, List.countP_append, spec.1, ih]

end Rem

/-- C4: for a cron reminder `r` in a reminder list with unique ids, and a
sequence of sequential `check()` invocations at time `t` and then at times
`ts` all lying in the same UTC (year, month, day, hour, minute) as `t`,
where the expression matches at `t` and the same-minute guard passes at
`t` (`shouldCronFire` holds), the whole run appends exactly one fired
entry for `r`, and the first invocation stores `lastFired = t`. -/
theorem C4_cron_fires_once_per_minute (pd : String → Option Rem.DateTime)
    (r : Rem.Reminder) (l : List Rem.Reminder) (t : Rem.DateTime)
    (ts : List Rem.DateTime)
    (hmem : r ∈ l) (hnd : (l.map (fun x => x.id)).Nodup)
    (hcron : r.type = "cron")
    (hfire : Rem.shouldCronFire r.expression r.lastFired t = true)
    (hsame : ∀ t' ∈ ts, Rem.sameMinuteB t t' = true) :
    (Rem.runChecks pd l (t :: ts)).2.countP
        (fun f => f.reminder.id = r.id) = 1 ∧
      { r with lastFired := some t } ∈ (Rem.checkReminders pd t l).updated := by
  have spec := Rem.cron_check_spec pd t r hcron l hmem hnd
  rw [hfire] at spec
  simp only [if_true] at spec
  have hnd' : ((Rem.checkReminders pd t l).updated.map (fun x => x.id)).Nodup :=
    (Rem.check_ids_sublist pd t l).nodup hnd
  have hrest : (Rem.runChecks pd (Rem.checkReminders pd t l).updated ts).2.countP
      (fun f => f.reminder.id = r.id) = 0 := by
    have hguard : ∀ t' ∈ ts,
        Rem.shouldCronFire r.expression (some t) t' = false := by
      intro t' ht'
      simp [Rem.shouldCronFire, hsame t' ht']
    have := Rem.cron_no_fire_run pd { r with lastFired := some t }
      (by simpa using hcron) ts (Rem.checkReminders pd t l).updated
      spec.2 hnd' (by simpa using hguard)
    simpa using this
  refine ⟨?_, spec.2⟩
  simp only [Rem.runChecks, List.countP_append, spec.1, hrest]

namespace Rem

/-- A cron reminder always survives `check()` (possibly with `lastFired`
stamped). -/
theorem cron_retained (pd : String → Option DateTime) (now : DateTime) :
    ∀ l (r : Reminder), r ∈ l → r.type = "cron" →
      ∃ r' ∈ (checkReminders pd now l).updated,
        r' = r ∨ r' = { r with lastFired := some now }
  | [], r, hm, _ => absurd hm (List.not_mem_nil r)
  | x :: rest, r, hm, hc => by
    rcases List.mem_cons.mp hm with hrx | hrrest
    · subst hrx
      have honce : ¬r.type = "once" := by rw [hc]; decide
      simp only [checkReminders]
      rw [if_neg honce, if_pos hc]
      by_cases hf : shouldCronFire r.expression r.lastFired now
      · rw [if_pos hf]
        exact ⟨{ r with lastFired := some now }, List.mem_cons_self _ _, Or.inr rfl⟩
      · rw [if_neg hf]
        exact ⟨r, List.mem_cons_self _ _, Or.inl rfl⟩
    · obtain ⟨r', hr', hor⟩ := cron_retained pd now rest r hrrest hc
      simp only [checkReminders]
      by_cases h1 : x.type = "once"
      · rw [if_pos h1]
        by_cases hle : onceDue pd x.expression now
        · rw [if_pos hle]
          exact ⟨r', hr', hor⟩
        · rw [if_neg hle]
          exact ⟨r', List.mem_cons_of_mem _ hr', hor⟩
      · rw [if_neg h1]
        by_cases h2 : x.type = "cron"
        · rw [if_pos h2]
          by_cases hxf : shouldCronFire x.expression x.lastFired now
          · rw [if_pos hxf]
            exact ⟨r', List.mem_cons_of_mem _ hr', hor⟩
          · rw [if_neg hxf]
            exact ⟨r', List.mem_cons_of_mem _ hr', hor⟩
        · rw [if_neg h2]
          exact ⟨r', List.mem_cons_of_mem _ hr', hor⟩

/-- An expression that does not split into exactly five fields never
matches. -/
theorem shouldCronFire_of_bad_arity (expr : String) (lf : Option DateTime)
    (now : DateTime) (h5 : (splitWs expr).length ≠ 5) :
    shouldCronFire expr lf now = false := by
  have hcm : cronMatches expr now = false := by
    rcases hsp : splitWs expr with _ | ⟨a, _ | ⟨b, _ | ⟨c, _ | ⟨d, _ | ⟨e, _ | ⟨f, rest⟩⟩⟩⟩⟩⟩ <;>
      simp only [cronMatches, hsp] <;> first
        | rfl
        | (exfalso; apply h5; rw [hsp]; rfl)
  simp [shouldCronFire, hcm]

/-- `check()` with nothing due and nothing matching is a complete no-op:
nothing fires, the list is unchanged, and no write happens. -/
theorem check_no_change (pd : String → Option DateTime) (now : DateTime) :
    ∀ l : List Reminder,
      (∀ r ∈ l, (r.type = "once" → onceDue pd r.expression now = false) ∧
        (r.type = "cron" →
          shouldCronFire r.expression r.lastFired now = false)) →
      checkReminders pd now l = ⟨[], l, false⟩
  | [], _ => rfl
  | r :: rest, h => by
    have ih := check_no_change pd now rest
      (fun x hx => h x (List.mem_cons_of_mem _ hx))
    have hr := h r (List.mem_cons_self _ _)
    simp only [checkReminders, ih]
    by_cases h1 : r.type = "once"
    · rw [if_pos h1, if_neg (by rw [hr.1 h1]; decide)]
    · rw [if_neg h1]
      by_cases h2 : r.type = "cron"
      · rw [if_pos h2, if_neg (by rw [hr.2 h2]; decide)]
      · rw [if_neg h2]

end Rem

/-- C4 witness: a daily-9:00 cron reminder checked at 09:00:00 and again at
09:00:30 on the same day fires exactly once. -/
theorem C4_witness :
    (Rem.shouldCronFire "0 9 * * *" none ⟨0, 2026, 0, 31, 9, 0, 6⟩ = true) ∧
    ((Rem.runChecks (fun _ => none)
        [⟨"daily", "cron", "0 9 * * *", "d", "p", "c", none⟩]
        [⟨0, 2026, 0, 31, 9, 0, 6⟩, ⟨30000, 2026, 0, 31, 9, 0, 6⟩]).2.countP
          (fun f => f.reminder.id = "daily") = 1 ∧
      ({ id := "daily", type := "cron", expression := "0 9 * * *",
         description := "d", payload := "p", createdAt := "c",
         lastFired := some ⟨0, 2026, 0, 31, 9, 0, 6⟩ } : Rem.Reminder) ∈
        (Rem.checkReminders (fun _ => none) ⟨0, 2026, 0, 31, 9, 0, 6⟩
          [⟨"daily", "cron", "0 9 * * *", "d", "p", "c", none⟩]).updated) :=
  ⟨by decide,
    C4_cron_fires_once_per_minute (fun _ => none)
      ⟨"daily", "cron", "0 9 * * *", "d", "p", "c", none⟩
      [⟨"daily", "cron", "0 9 * * *", "d", "p", "c", none⟩]
      ⟨0, 2026, 0, 31, 9, 0, 6⟩ [⟨30000, 2026, 0, 31, 9, 0, 6⟩]
      (by decide) (by decide) (by decide) (by decide) (by decide)⟩

/-- C8 counterexample: `"5x * * * *"` is not a well-formed 5-field cron
expression (its minute field has trailing garbage), yet `shouldCronFire`
matches it at minute 5 because `parseInt("5x") = 5`; the claim that
invalid expressions never fire is false. -/
theorem C8_counterexample :
    Rem.wellFormedCronExpr "5x * * * *" = false ∧
      Rem.shouldCronFire "5x * * * *" none ⟨0, 2026, 0, 15, 9, 5, 4⟩ = true := by
  decide

/-- C8 (amended): an expression without exactly five whitespace-separated
fields never fires; cron reminders are always retained by `check()` (the
checker is a total function — no error is raised). -/
theorem C8_invalid_cron_no_match_retained
    (pd : String → Option Rem.DateTime) (now : Rem.DateTime) (expr : String)
    (lf : Option Rem.DateTime) (l : List Rem.Reminder) (r : Rem.Reminder)
    (h5 : (splitWs expr).length ≠ 5) (hm : r ∈ l) (hc : r.type = "cron") :
    Rem.shouldCronFire expr lf now = false ∧
      ∃ r' ∈ (Rem.checkReminders pd now l).updated,
        r' = r ∨ r' = { r with lastFired := some now } :=
  ⟨Rem.shouldCronFire_of_bad_arity expr lf now h5,
   Rem.cron_retained pd now l r hm hc⟩

/-- C8 witness: a reminder with the two-field expression
`"invalid expression"` does not fire and is retained. -/
theorem C8_witness :
    Rem.shouldCronFire "invalid expression" none ⟨0, 2026, 0, 31, 9, 0, 6⟩ = false ∧
      ∃ r' ∈ (Rem.checkReminders (fun _ => none) ⟨0, 2026, 0, 31, 9, 0, 6⟩
          [⟨"bad", "cron", "invalid expression", "d", "p", "c", none⟩]).updated,
        r' = (⟨"bad", "cron", "invalid expression", "d", "p", "c", none⟩ : Rem.Reminder) ∨
          r' = { (⟨"bad", "cron", "invalid expression", "d", "p", "c", none⟩ : Rem.Reminder) with
                   lastFired := some ⟨0, 2026, 0, 31, 9, 0, 6⟩ } :=
  C8_invalid_cron_no_match_retained (fun _ => none) ⟨0, 2026, 0, 31, 9, 0, 6⟩
    "invalid expression" none
    [⟨"bad", "cron", "invalid expression", "d", "p", "c", none⟩]
    ⟨"bad", "cron", "invalid expression", "d", "p", "c", none⟩
    (by decide) (by decide) (by decide)

/-- C10: a `check()` invocation in which no one-shot reminder is due and no
cron reminder matches outside its `lastFired` minute performs no storage
write: `saveReminders` is not called (`wrote = false`), the persisted list
is exactly the input list, and every reminder's `lastFired` is unchanged. -/
theorem C10_no_fire_no_write (pd : String → Option Rem.DateTime)
    (now : Rem.DateTime) (l : List Rem.Reminder)
    (h : ∀ r ∈ l, (r.type = "once" → Rem.onceDue pd r.expression now = false) ∧
      (r.type = "cron" →
        Rem.shouldCronFire r.expression r.lastFired now = false)) :
    Rem.checkReminders pd now l = ⟨[], l, false⟩ :=
  Rem.check_no_change pd now l h

/-- C10 witness: a non-matching cron reminder and a not-yet-due one-shot
reminder produce no fire and no write. -/
theorem C10_witness :
    Rem.checkReminders (fun _ => some ⟨99999, 2026, 1, 1, 0, 0, 0⟩)
        ⟨0, 2026, 0, 31, 10, 0, 6⟩
        [⟨"daily", "cron", "0 9 * * *", "d", "p", "c", none⟩,
         ⟨"later", "once", "2026-02-01T00:00:00Z", "d", "p", "c", none⟩] =
      ⟨[], [⟨"daily", "cron", "0 9 * * *", "d", "p", "c", none⟩,
            ⟨"later", "once", "2026-02-01T00:00:00Z", "d", "p", "c", none⟩],
        false⟩ :=
  C10_no_fire_no_write (fun _ => some ⟨99999, 2026, 1, 1, 0, 0, 0⟩)
    ⟨0, 2026, 0, 31, 10, 0, 6⟩ _ (by decide)

/-- C5: the deployed worker's `fetch` validates the bearer token *before*
reaching the `/health` branch, so an unauthenticated `GET /health` is
answered 401 with a JSON-RPC error — not 200 `{status:"ok"}` — while the
same request with a valid bearer header gets the 200 health body.  This
contradicts the spec and the repository's own E2E test, which fetches
`/health` without any Authorization header and expects 200. -/
theorem C5_health_is_behind_auth :
    Web.workerFetch "GET" "/health" none "secret123" =
      ⟨401, .unauthorized "Missing Authorization header"⟩ ∧
    Web.workerFetch "GET" "/health" (some "Bearer secret123") "secret123" =
      ⟨200, .healthOk "0.1.0"⟩ := by
  decide

/-- C9 counterexample: a `formatting` auto-apply with *no* `oldText` and
`newText` succeeds and records a fix (the claim says it must fail), and a
`formatting` fix whose `oldText` is not a substring of the file also
succeeds and records (again the claim says it must fail). -/
theorem C9_counterexample :
    Reflect.executeAutoApply (some "hello world") .formatting none none =
      ⟨true, none, none, true⟩ ∧
    Reflect.executeAutoApply (some "hello world") .formatting
        (some "absent") (some "x") =
      ⟨true, none, none, true⟩ := by
  decide

/-- C9 (amended): for `typo` and `whitespace` the claimed contract holds —
missing/empty `oldText` or `newText` fails with no record and no write,
`oldText` not a substring fails likewise, and otherwise the first
occurrence is replaced (the write being skipped when nothing changes) —
while `formatting` always succeeds and records, replacing only when
`oldText` is truthy and `newText` is present; a missing file always
fails. -/
theorem C9_auto_apply_amended (content : String) (o n : Option String) :
    (∀ ft, ft = Reflect.FixType.typo ∨ ft = Reflect.FixType.whitespace →
      (((jsTruthy o && jsTruthy n) = false →
        Reflect.executeAutoApply (some content) ft o n =
          ⟨false, some "oldText and newText required", none, false⟩) ∧
      ((jsTruthy o && jsTruthy n) = true →
        containsSubstr content (o.getD "") = false →
        Reflect.executeAutoApply (some content) ft o n =
          ⟨false, some "oldText not found in file", none, false⟩) ∧
      ((jsTruthy o && jsTruthy n) = true →
        containsSubstr content (o.getD "") = true →
        Reflect.executeAutoApply (some content) ft o n =
          ⟨true, none,
            if replaceFirst content (o.getD "") (n.getD "") ≠ content then
              some (replaceFirst content (o.getD "") (n.getD "")) else none,
            true⟩))) ∧
    ((Reflect.executeAutoApply (some content) .formatting o n).success = true ∧
      (Reflect.executeAutoApply (some content) .formatting o n).recorded = true) ∧
    (∀ ft, Reflect.executeAutoApply none ft o n =
      ⟨false, some "File not found", none, false⟩) := by
  refine ⟨?_, ?_, ?_⟩
  · rintro ft (rfl | rfl) <;>
      exact ⟨fun h => by simp [Reflect.executeAutoApply, h],
        fun h hsub => by simp [Reflect.executeAutoApply, h, hsub],
        fun h hsub => by simp [Reflect.executeAutoApply, h, hsub]⟩
  · constructor <;>
      · simp only [Reflect.executeAutoApply]
        by_cases h : (jsTruthy o && n ≠ none : Bool) <;> simp [h] <;>
          split <;> rfl
  · intro ft
    rfl

/-- C9 witness: a typo fix whose `oldText` occurs replaces it and reports
success, exercising the substantive branch of the amended contract. -/
theorem C9_witness :
    ((jsTruthy (some "tset") && jsTruthy (some "test")) = true) ∧
    (containsSubstr "a tset here" "tset" = true) ∧
    Reflect.executeAutoApply (some "a tset here") .typo
        (some "tset") (some "test") =
      ⟨true, none,
        if replaceFirst "a tset here" "tset" "test" ≠ "a tset here" then
          some (replaceFirst "a tset here" "tset" "test") else none,
        true⟩ :=
  ⟨by decide, by decide,
    ((C9_auto_apply_amended "a tset here" (some "tset") (some "test")).1
        Reflect.FixType.typo (Or.inl rfl)).2.2 (by decide) (by decide)⟩


/-! # Lemmas about the conversation indexer -/

namespace Conv

/-- If `pat` starts at position `|pre|` of `pre ++ pat ++ suf` and has no
occurrence beginning inside `pre` (equivalently, none inside the first
`|pre| + |pat| − 1` characters), then the remainder after the first
occurrence is exactly `suf`. -/
theorem afterFirstL_first_occurrence (pat : List Char) (p₀ : Char)
    (pt : List Char) (hpat : pat = p₀ :: pt) :
    ∀ pre suf : List Char,
      containsSubstrL ((pre ++ pat ++ suf).take (pre.length + pat.length - 1))
        pat = false →
      afterFirstL (pre ++ pat ++ suf) pat = some suf
  | [], suf, _ => by
    subst hpat
    have hpre : (p₀ :: pt).isPrefixOf (p₀ :: (pt ++ suf)) = true := by
      rw [List.isPrefixOf_iff_prefix]
      exact ⟨suf, by simp⟩
    show (if (p₀ :: pt).isPrefixOf (p₀ :: (pt ++ suf)) = true then
        some ((p₀ :: (pt ++ suf)).drop (p₀ :: pt).length)
      else afterFirstL (pt ++ suf) (p₀ :: pt)) = some suf
    rw [hpre, if_pos rfl, List.length_cons, List.drop_succ_cons,
      List.drop_left]
  | c :: pre, suf, hno => by
    have hplen : 1 ≤ pat.length := by rw [hpat]; simp
    have hX : (c :: pre) ++ pat ++ suf = c :: (pre ++ pat ++ suf) := by simp
    have hlen : (c :: pre).length + pat.length - 1 =
        (pre.length + pat.length - 1) + 1 := by
      simp only [List.length_cons]
      omega
    have htake : ((c :: pre) ++ pat ++ suf).take ((c :: pre).length + pat.length - 1) =
        c :: ((pre ++ pat ++ suf).take (pre.length + pat.length - 1)) := by
      rw [hX, hlen, List.take_succ_cons]
    rw [htake] at hno
    have hno' := hno
    rw [show containsSubstrL
          (c :: ((pre ++ pat ++ suf).take (pre.length + pat.length - 1))) pat =
        (pat.isPrefixOf
            (c :: ((pre ++ pat ++ suf).take (pre.length + pat.length - 1))) ||
          containsSubstrL ((pre ++ pat ++ suf).take (pre.length + pat.length - 1))
            pat) from rfl] at hno'
    rw [Bool.or_eq_false_iff] at hno'
    have ihres := afterFirstL_first_occurrence pat p₀ pt hpat pre suf hno'.2
    have hfalse : pat.isPrefixOf (c :: (pre ++ pat ++ suf)) = false := by
      cases hb : pat.isPrefixOf (c :: (pre ++ pat ++ suf)) with
      | false => rfl
      | true =>
        exfalso
        have hpfx : pat <+: (c :: (pre ++ pat ++ suf)) :=
          List.isPrefixOf_iff_prefix.mp hb
        have hlenle : pat.length ≤ (c :: pre).length + pat.length - 1 := by
          simp only [List.length_cons]
          omega
        have htk : pat <+: ((c :: (pre ++ pat ++ suf)).take
            ((c :: pre).length + pat.length - 1)) :=
          List.prefix_take_iff.mpr ⟨hpfx, hlenle⟩
        rw [← hX, htake] at htk
        have : pat.isPrefixOf
            (c :: ((pre ++ pat ++ suf).take (pre.length + pat.length - 1))) = true :=
          List.isPrefixOf_iff_prefix.mpr htk
        rw [hno'.1] at this
        exact Bool.false_ne_true this
    rw [hX]
    rw [show afterFirstL (c :: (pre ++ pat ++ suf)) pat =
        (if pat.isPrefixOf (c :: (pre ++ pat ++ suf)) then
          some ((c :: (pre ++ pat ++ suf)).drop pat.length)
        else afterFirstL (pre ++ pat ++ suf) pat) from rfl]
    rw [hfalse]
    simpa using ihres

end Conv

/-- C7 counterexample: on content with two `"\nUser message: "` markers the
extracted prompt is the suffix after the *first* marker — including the
later marker — not the suffix after the last one, because the regex
`/\nUser message: (.+)$/s` takes the leftmost match. -/
theorem C7_counterexample :
    Conv.extractUserText
        "preamble\nUser message: first\nUser message: second" =
      "first\nUser message: second" ∧
    Conv.extractUserText
        "preamble\nUser message: first\nUser message: second" ≠ "second" := by
  decide

/-- C7 (amended): for eligible content written as
`pre ++ "\nUser message: " ++ suf` where no marker occurrence begins
before position `|pre|` and `suf` is nonempty, the extracted prompt is the
trimmed `suf` — the suffix after the *first* marker occurrence, later
markers (which live inside `suf`) included. -/
theorem C7_user_text_after_first_marker (pre suf : List Char)
    (hno : containsSubstrL
        ((pre ++ Conv.userMarker.toList ++ suf).take
          (pre.length + Conv.userMarker.toList.length - 1))
        Conv.userMarker.toList = false)
    (hsuf : suf ≠ []) :
    Conv.extractUserText
        (String.mk (pre ++ Conv.userMarker.toList ++ suf)) =
      strTrim (String.mk suf) := by
  have hfirst := Conv.afterFirstL_first_occurrence Conv.userMarker.toList
    '\n' "User message: ".toList rfl pre suf hno
  show (match afterFirstL (pre ++ Conv.userMarker.toList ++ suf)
      Conv.userMarker.toList with
    | some suffix =>
      if suffix ≠ [] then strTrim (String.mk suffix)
      else strTrim (String.mk (pre ++ Conv.userMarker.toList ++ suf))
    | none => strTrim (String.mk (pre ++ Conv.userMarker.toList ++ suf))) =
    strTrim (String.mk suf)
  rw [hfirst]
  simp only [hsuf]
  rw [if_pos hsuf]

/-- C7 witness: `"x\nUser message: hi\nUser message: you"` decomposes with
`pre = "x"`, and the extracted prompt is `"hi\nUser message: you"`. -/
theorem C7_witness :
    (containsSubstrL
        (("x".toList ++ Conv.userMarker.toList ++
            "hi\nUser message: you".toList).take
          ("x".toList.length + Conv.userMarker.toList.length - 1))
        Conv.userMarker.toList = false) ∧
    Conv.extractUserText
        (String.mk ("x".toList ++ Conv.userMarker.toList ++
          "hi\nUser message: you".toList)) =
      strTrim (String.mk "hi\nUser message: you".toList) :=
  ⟨by decide,
    C7_user_text_after_first_marker "x".toList "hi\nUser message: you".toList
      (by decide) (by decide)⟩

namespace Conv

/-- `extractAssistantText` is the 1000-character cut of the selected raw
text, in every case. -/
theorem extractAssistantText_eq_take (content : MsgContent) :
    extractAssistantText content = strTake (assistantRawText content) 1000 := by
  cases content with
  | str s => rfl
  | blocks bs =>
    simp only [extractAssistantText, assistantRawText]
    cases bs.find? (fun b => b.type == "text" && jsTruthy b.text) with
    | none => rfl
    | some b => rfl

/-- Truncating an already-1000-truncated string to 2000 characters is a
no-op. -/
theorem strTake_strTake (s : String) :
    strTake (strTake s 1000) 2000 = strTake s 1000 := by
  simp [strTake, List.take_take]

/-- Every exchange emitted by the message walk takes its
`assistantResponse` from some assistant message, 1000-cut, and its
`userPrompt` either from the pending user slot or from some string-content
user message, 2000-cut. -/
theorem parseLoop_shape (sid proj : String) (ca : Option String)
    (now : String) :
    ∀ (ms : List OCMessage) (i : Nat) (cu : Option CurrentUser)
      (e : ConversationExchange), e ∈ parseLoop sid proj ca now ms i cu →
      (∃ m ∈ ms, m.role = "assistant" ∧
        e.assistantResponse = strTake (assistantRawText m.content) 1000) ∧
      ((∃ u, cu = some u ∧ e.userPrompt = strTake u.content 2000) ∨
        (∃ m ∈ ms, m.role = "user" ∧ ∃ c, m.content = MsgContent.str c ∧
          e.userPrompt = strTake (extractUserText c) 2000))
  | [], _, _, e, he => by simp [parseLoop] at he
  | m :: rest, i, cu, e, he => by
    simp only [parseLoop] at he
    by_cases hu : m.role = "user"
    · rw [if_pos hu] at he
      cases hc : m.content with
      | str c =>
        rw [hc] at he
        dsimp only at he
        by_cases helig : (isToolResult c || isSystemContext c : Bool)
        · rw [if_pos helig] at he
          obtain ⟨ha, hp⟩ := parseLoop_shape sid proj ca now rest (i + 1) cu e he
          refine ⟨?_, ?_⟩
          · obtain ⟨m', hm', h1, h2⟩ := ha
            exact ⟨m', List.mem_cons_of_mem _ hm', h1, h2⟩
          · rcases hp with h | ⟨m', hm', h1, c', h2, h3⟩
            · exact Or.inl h
            · exact Or.inr ⟨m', List.mem_cons_of_mem _ hm', h1, c', h2, h3⟩
        · rw [if_neg helig] at he
          obtain ⟨ha, hp⟩ := parseLoop_shape sid proj ca now rest (i + 1)
            (some ⟨extractUserText c, firstTruthy m.timestamp ca now, i⟩) e he
          refine ⟨?_, ?_⟩
          · obtain ⟨m', hm', h1, h2⟩ := ha
            exact ⟨m', List.mem_cons_of_mem _ hm', h1, h2⟩
          · rcases hp with ⟨u, hu', hup⟩ | ⟨m', hm', h1, c', h2, h3⟩
            · refine Or.inr ⟨m, List.mem_cons_self _ _, hu, c, hc, ?_⟩
              have hrev := Option.some.inj hu'
              rw [← hrev] at hup
              exact hup
            · exact Or.inr ⟨m', List.mem_cons_of_mem _ hm', h1, c', h2, h3⟩
      | blocks bs =>
        rw [hc] at he
        dsimp only at he
        obtain ⟨ha, hp⟩ := parseLoop_shape sid proj ca now rest (i + 1) cu e he
        refine ⟨?_, ?_⟩
        · obtain ⟨m', hm', h1, h2⟩ := ha
          exact ⟨m', List.mem_cons_of_mem _ hm', h1, h2⟩
        · rcases hp with h | ⟨m', hm', h1, c', h2, h3⟩
          · exact Or.inl h
          · exact Or.inr ⟨m', List.mem_cons_of_mem _ hm', h1, c', h2, h3⟩
    · rw [if_neg hu] at he
      by_cases has : m.role = "assistant"
      · rw [if_pos has] at he
        cases hcu : cu with
        | none =>
          rw [hcu] at he
          dsimp only at he
          obtain ⟨ha, hp⟩ := parseLoop_shape sid proj ca now rest (i + 1) none e he
          refine ⟨?_, ?_⟩
          · obtain ⟨m', hm', h1, h2⟩ := ha
            exact ⟨m', List.mem_cons_of_mem _ hm', h1, h2⟩
          · rcases hp with ⟨u, hu', _⟩ | ⟨m', hm', h1, c', h2, h3⟩
            · exact absurd hu' (by simp)
            · exact Or.inr ⟨m', List.mem_cons_of_mem _ hm', h1, c', h2, h3⟩
        | some u =>
          rw [hcu] at he
          dsimp only at he
          rcases List.mem_append.mp he with hpush | htail
          · -- e is the exchange pushed for this assistant message
            by_cases hne : (u.content ≠ "" ∧ extractAssistantText m.content ≠ "")
            · rw [if_pos hne] at hpush
              have he' : e = ⟨sid ++ "-" ++ toString u.index, sid, proj,
                  strTake u.content 2000,
                  strTake (extractAssistantText m.content) 2000,
                  u.timestamp, u.index⟩ := by
                simpa using hpush
              refine ⟨⟨m, List.mem_cons_self _ _, has, ?_⟩,
                Or.inl ⟨u, rfl, ?_⟩⟩
              · rw [he']
                show strTake (extractAssistantText m.content) 2000 =
                  strTake (assistantRawText m.content) 1000
                rw [extractAssistantText_eq_take, strTake_strTake]
              · rw [he']
            · rw [if_neg hne] at hpush
              exact absurd hpush (List.not_mem_nil e)
          · obtain ⟨ha, hp⟩ := parseLoop_shape sid proj ca now rest (i + 1) none e htail
            refine ⟨?_, ?_⟩
            · obtain ⟨m', hm', h1, h2⟩ := ha
              exact ⟨m', List.mem_cons_of_mem _ hm', h1, h2⟩
            · rcases hp with ⟨u', hu', _⟩ | ⟨m', hm', h1, c', h2, h3⟩
              · exact absurd hu' (by simp)
              · exact Or.inr ⟨m', List.mem_cons_of_mem _ hm', h1, c', h2, h3⟩
      · rw [if_neg has] at he
        obtain ⟨ha, hp⟩ := parseLoop_shape sid proj ca now rest (i + 1) cu e he
        refine ⟨?_, ?_⟩
        · obtain ⟨m', hm', h1, h2⟩ := ha
          exact ⟨m', List.mem_cons_of_mem _ hm', h1, h2⟩
        · rcases hp with h | ⟨m', hm', h1, c', h2, h3⟩
          · exact Or.inl h
          · exact Or.inr ⟨m', List.mem_cons_of_mem _ hm', h1, c', h2, h3⟩

end Conv

set_option maxRecDepth 8000 in
/-- C6 counterexample: an assistant reply of 1001 characters is stored as
its first 1000 characters, not its first min(1001, 2000) = 1001
characters: `extractAssistantText` cuts at 1000 before the 2000-character
slice, so the claim's 2000-character contract for `assistantResponse` is
false. -/
theorem C6_counterexample :
    (Conv.parseOpenCodeSession "s" "p"
        ⟨[⟨"user", .str "hello there", none⟩,
          ⟨"assistant", .str (String.mk (List.replicate 1001 'a')), none⟩],
         none⟩ "T").map (fun e => e.assistantResponse) =
      [String.mk (List.replicate 1000 'a')] ∧
    String.mk (List.replicate 1000 'a') ≠
      strTake (String.mk (List.replicate 1001 'a')) 2000 := by
  decide

/-- C6 (amended): every emitted exchange stores `userPrompt` as the first
min(length, 2000) characters of the extracted eligible user text, and
`assistantResponse` as the first min(length, 1000) characters of the
assistant message's selected text (`extractAssistantText` cuts at 1000
before the parser's 2000-slice); assistant text of at most 1000 characters
is stored in full. -/
theorem C6_truncation_amended (sid proj : String) (sess : Conv.OCSession)
    (nowIso : String) (e : Conv.ConversationExchange)
    (he : e ∈ Conv.parseOpenCodeSession sid proj sess nowIso) :
    (∃ m ∈ sess.messages, m.role = "assistant" ∧
      e.assistantResponse = strTake (Conv.assistantRawText m.content) 1000) ∧
    (∃ m ∈ sess.messages, m.role = "user" ∧
      ∃ c, m.content = Conv.MsgContent.str c ∧
        e.userPrompt = strTake (Conv.extractUserText c) 2000) := by
  obtain ⟨ha, hp⟩ := Conv.parseLoop_shape sid proj sess.createdAt nowIso
    sess.messages 0 none e he
  refine ⟨ha, ?_⟩
  rcases hp with ⟨u, hu, _⟩ | h
  · exact absurd hu (by simp)
  · exact h

/-- C6 witness: a short session whose single exchange stores both texts in
full. -/
theorem C6_witness :
    ((⟨"s-0", "s", "p", "hello there", "short answer", "T", 0⟩ :
        Conv.ConversationExchange) ∈
      Conv.parseOpenCodeSession "s" "p"
        ⟨[⟨"user", .str "hello there", none⟩,
          ⟨"assistant", .str "short answer", none⟩], none⟩ "T") ∧
    ((∃ m ∈ ([⟨"user", .str "hello there", none⟩,
          ⟨"assistant", .str "short answer", none⟩] : List Conv.OCMessage),
        m.role = "assistant" ∧
        (⟨"s-0", "s", "p", "hello there", "short answer", "T", 0⟩ :
            Conv.ConversationExchange).assistantResponse =
          strTake (Conv.assistantRawText m.content) 1000) ∧
      (∃ m ∈ ([⟨"user", .str "hello there", none⟩,
          ⟨"assistant", .str "short answer", none⟩] : List Conv.OCMessage),
        m.role = "user" ∧ ∃ c, m.content = Conv.MsgContent.str c ∧
          (⟨"s-0", "s", "p", "hello there", "short answer", "T", 0⟩ :
              Conv.ConversationExchange).userPrompt =
            strTake (Conv.extractUserText c) 2000)) :=
  ⟨by decide,
    C6_truncation_amended "s" "p"
      ⟨[⟨"user", .str "hello there", none⟩,
        ⟨"assistant", .str "short answer", none⟩], none⟩ "T"
      ⟨"s-0", "s", "p", "hello there", "short answer", "T", 0⟩ (by decide)⟩

/-! # Lemmas about the stable sort and time-weighted search -/

theorem insortBy_perm (key : α → ℚ) (x : α) :
    ∀ l : List α, (insortBy key x l).Perm (x :: l)
  | [] => List.Perm.refl _
  | y :: t => by
    simp only [insortBy]
    by_cases h : key x < key y
    · rw [if_pos h]
    · rw [if_neg h]
      exact ((insortBy_perm key x t).cons y).trans (List.Perm.swap x y t)

theorem sortBy_foldl_perm (key : α → ℚ) :
    ∀ (l acc : List α),
      (l.foldl (fun acc x => insortBy key x acc) acc).Perm (acc ++ l)
  | [], acc => by simp
  | x :: t, acc => by
    have ih := sortBy_foldl_perm key t (insortBy key x acc)
    have h1 : (insortBy key x acc ++ t).Perm ((x :: acc) ++ t) :=
      (insortBy_perm key x acc).append_right t
    have h2 : ((x :: acc) ++ t).Perm (acc ++ x :: t) := by
      simpa using List.perm_middle.symm
    simpa [List.foldl_cons] using (ih.trans h1).trans h2

theorem sortBy_perm (key : α → ℚ) (l : List α) : (sortBy key l).Perm l := by
  simpa using sortBy_foldl_perm key l []

theorem mem_insortBy (key : α → ℚ) (x a : α) (l : List α) :
    a ∈ insortBy key x l ↔ a = x ∨ a ∈ l :=
  ⟨fun h => by simpa using (insortBy_perm key x l).mem_iff.mp h,
   fun h => (insortBy_perm key x l).mem_iff.mpr (List.mem_cons.mpr h)⟩

theorem insortBy_pairwise (key : α → ℚ) (x : α) :
    ∀ l : List α, l.Pairwise (fun a b => key a ≤ key b) →
      (insortBy key x l).Pairwise (fun a b => key a ≤ key b)
  | [], _ => List.pairwise_singleton _ x
  | y :: t, h => by
    obtain ⟨hy, ht⟩ := List.pairwise_cons.mp h
    simp only [insortBy]
    by_cases hlt : key x < key y
    · rw [if_pos hlt]
      refine List.pairwise_cons.mpr ⟨?_, h⟩
      intro b hb
      rcases List.mem_cons.mp hb with rfl | hb'
      · exact le_of_lt hlt
      · exact le_trans (le_of_lt hlt) (hy b hb')
    · rw [if_neg hlt]
      refine List.pairwise_cons.mpr ⟨?_, insortBy_pairwise key x t ht⟩
      intro b hb
      rcases (mem_insortBy key x b t).mp hb with rfl | hb'
      · exact le_of_not_lt hlt
      · exact hy b hb'

theorem sortBy_foldl_pairwise (key : α → ℚ) :
    ∀ (l acc : List α), acc.Pairwise (fun a b => key a ≤ key b) →
      (l.foldl (fun acc x => insortBy key x acc) acc).Pairwise
        (fun a b => key a ≤ key b)
  | [], _, h => h
  | x :: t, acc, h => by
    simpa [List.foldl_cons] using
      sortBy_foldl_pairwise key t (insortBy key x acc)
        (insortBy_pairwise key x acc h)

theorem sortBy_pairwise (key : α → ℚ) (l : List α) :
    (sortBy key l).Pairwise (fun a b => key a ≤ key b) :=
  sortBy_foldl_pairwise key l [] (List.Pairwise.nil)

/-- C3: the time-weighted search pipeline.  With `timeWeight` on, the
service asks the HNSW index for `limit * 3` raw results; every returned
entry is some raw result re-scored as
`score * (0.3 + 0.7 * 0.5^((now − updated_at)/H))` with `H` = 30 days in
ms and `updated_at` defaulting to `now` (age 0) when the row is unknown;
the output is sorted by adjusted score descending, has `min k (3k-results)`
entries, and consists of the top `k` adjusted scores: every discarded
adjusted score is at most every returned one. -/
theorem C3_time_weighted_search (pow05 : ℚ → ℚ) (tbl : String → Option Int)
    (now : Int) (searchFn : Nat → List DObj.SR) (limit : Nat) :
    (DObj.handleSearchTW pow05 tbl now searchFn limit).length =
      min limit (searchFn (limit * 3)).length ∧
    (∀ x ∈ DObj.handleSearchTW pow05 tbl now searchFn limit,
      ∃ r ∈ searchFn (limit * 3), x.id = r.id ∧
        x.score = r.score * (3/10 + 7/10 *
          pow05 (((now - ((tbl r.id).getD now) : Int) : ℚ) / DObj.halfLifeMs))) ∧
    (DObj.handleSearchTW pow05 tbl now searchFn limit).Pairwise
      (fun a b => b.score ≤ a.score) ∧
    (∃ dropped : List ℚ,
      ((searchFn (limit * 3)).map (DObj.adjScore pow05 tbl now)).Perm
        ((DObj.handleSearchTW pow05 tbl now searchFn limit).map
          (fun x => x.score) ++ dropped) ∧
      ∀ d ∈ dropped,
        ∀ s ∈ (DObj.handleSearchTW pow05 tbl now searchFn limit).map
          (fun x => x.score), d ≤ s) := by
  have hout : DObj.handleSearchTW pow05 tbl now searchFn limit =
      ((sortBy (fun p => -p.2)
          ((searchFn (limit * 3)).map
            (fun r => (r, DObj.adjScore pow05 tbl now r)))).take limit).map
        (fun p => (⟨p.1.id, p.2⟩ : DObj.SR)) := rfl
  set raw := searchFn (limit * 3) with hraw
  set scored := raw.map (fun r => (r, DObj.adjScore pow05 tbl now r))
    with hscored
  set sorted := sortBy (fun p : DObj.SR × ℚ => -p.2) scored with hsorted
  have hperm : sorted.Perm scored := sortBy_perm _ scored
  have hpair : sorted.Pairwise
      (fun p q : DObj.SR × ℚ => -p.2 ≤ -q.2) := sortBy_pairwise _ scored
  refine ⟨?_, ?_, ?_, ?_⟩
  · rw [hout, List.length_map, List.length_take, hperm.length_eq,
      List.length_map]
  · intro x hx
    rw [hout] at hx
    obtain ⟨p, hp, hpx⟩ := List.mem_map.mp hx
    have hp' : p ∈ sorted := List.mem_of_mem_take hp
    have hp'' : p ∈ scored := hperm.mem_iff.mp hp'
    obtain ⟨r, hr, hrp⟩ := List.mem_map.mp hp''
    refine ⟨r, hr, ?_, ?_⟩
    · rw [← hpx, ← hrp]
    · rw [← hpx, ← hrp]
      rfl
  · rw [hout]
    rw [List.pairwise_map]
    refine List.Pairwise.imp ?_ (hpair.sublist (List.take_sublist limit sorted))
    intro p q h
    simpa using neg_le_neg_iff.mp h
  · refine ⟨(sorted.drop limit).map (fun p => p.2), ?_, ?_⟩
    · have h1 : raw.map (DObj.adjScore pow05 tbl now) =
          scored.map (fun p => p.2) := by
        rw [hscored, List.map_map]
        rfl
      have h2 : (DObj.handleSearchTW pow05 tbl now searchFn limit).map
            (fun x => x.score) ++ (sorted.drop limit).map (fun p => p.2) =
          sorted.map (fun p => p.2) := by
        rw [hout, List.map_map]
        have hcomp : ((fun x : DObj.SR => x.score) ∘
            fun p : DObj.SR × ℚ => (⟨p.1.id, p.2⟩ : DObj.SR)) =
            fun p : DObj.SR × ℚ => p.2 := rfl
        rw [hcomp, ← List.map_append, List.take_append_drop]
      rw [h1, h2]
      exact (hperm.map (fun p => p.2)).symm
    · intro d hd s hs
      obtain ⟨q, hq, hqd⟩ := List.mem_map.mp hd
      rw [hout, List.map_map] at hs
      obtain ⟨p, hp, hps⟩ := List.mem_map.mp hs
      have hsplit := List.pairwise_append.mp
        (by rwa [List.take_append_drop] :
          ((sorted.take limit) ++ (sorted.drop limit)).Pairwise
            (fun p q : DObj.SR × ℚ => -p.2 ≤ -q.2))
      have := hsplit.2.2 p hp q hq
      rw [← hqd, ← hps]
      simpa using neg_le_neg_iff.mp this

/-- C3 witness: a concrete three-result index truncated to the top two. -/
theorem C3_witness :
    (DObj.handleSearchTW (fun _ => 1) (fun _ => none) 0
        (fun n => if n = 6 then
          [⟨"a", 1/2⟩, ⟨"b", 9/10⟩, ⟨"c", 7/10⟩] else []) 2).length =
      min 2 ((fun n : Nat => if n = 6 then
        [(⟨"a", 1/2⟩ : DObj.SR), ⟨"b", 9/10⟩, ⟨"c", 7/10⟩] else []) (2 * 3)).length :=
  (C3_time_weighted_search (fun _ => 1) (fun _ => none) 0
    (fun n => if n = 6 then [⟨"a", 1/2⟩, ⟨"b", 9/10⟩, ⟨"c", 7/10⟩] else []) 2).1

/-! # Lemmas about the association-map and set primitives -/

theorem mget_mset_self [DecidableEq κ] :
    ∀ (m : List (κ × β)) (k : κ) (v : β), mget (mset m k v) k = some v
  | [], k, v => by simp [mget, mset]
  | (a, b) :: t, k, v => by
    by_cases h : a = k
    · subst h
      simp [mget, mset]
    · simp only [mset, if_neg h, mget, if_neg h]
      exact mget_mset_self t k v

theorem mget_mset_ne [DecidableEq κ] (k' : κ) :
    ∀ (m : List (κ × β)) (k : κ) (v : β), k' ≠ k →
      mget (mset m k v) k' = mget m k'
  | [], k, v, h => by
    simp only [mset, mget]
    rw [if_neg (fun hc => h hc.symm)]
  | (a, b) :: t, k, v, h => by
    by_cases hak : a = k
    · subst hak
      have h1 : mset ((a, b) :: t) a v = (a, v) :: t := by simp [mset]
      rw [h1]
      simp only [mget]
      rw [if_neg (fun hc => h hc.symm), if_neg (fun hc => h hc.symm)]
    · simp only [mset, if_neg hak, mget]
      by_cases hak' : a = k'
      · rw [if_pos hak', if_pos hak']
      · rw [if_neg hak', if_neg hak']
        exact mget_mset_ne k' t k v h

theorem map_fst_mset [DecidableEq κ] :
    ∀ (m : List (κ × β)) (k : κ) (v : β),
      (mset m k v).map Prod.fst =
        if k ∈ m.map Prod.fst then m.map Prod.fst else m.map Prod.fst ++ [k]
  | [], k, v => by simp [mset]
  | (a, b) :: t, k, v => by
    by_cases h : a = k
    · subst h
      simp [mset]
    · simp only [mset, if_neg h, List.map_cons, map_fst_mset t k v]
      by_cases hm : k ∈ t.map Prod.fst
      · rw [if_pos hm, if_pos (by simp [hm])]
      · rw [if_neg hm, if_neg (by simp [hm, Ne.symm h])]
        simp

theorem map_fst_mset_of_mem [DecidableEq κ] (m : List (κ × β)) (k : κ)
    (v : β) (h : k ∈ m.map Prod.fst) :
    (mset m k v).map Prod.fst = m.map Prod.fst := by
  rw [map_fst_mset, if_pos h]

theorem mem_map_fst_of_mget [DecidableEq κ] :
    ∀ (m : List (κ × β)) (k : κ) (v : β), mget m k = some v →
      k ∈ m.map Prod.fst
  | [], k, v, h => by simp [mget] at h
  | (a, b) :: t, k, v, h => by
    simp only [mget] at h
    by_cases hak : a = k
    · simp [hak]
    · rw [if_neg hak] at h
      exact List.mem_cons_of_mem _ (mem_map_fst_of_mget t k v h)

theorem mget_eq_none_of_not_mem [DecidableEq κ] :
    ∀ (m : List (κ × β)) (k : κ), k ∉ m.map Prod.fst → mget m k = none
  | [], _, _ => rfl
  | (a, b) :: t, k, h => by
    have h1 : a ≠ k := by
      intro hc
      exact h (by simp [hc])
    simp only [mget, if_neg h1]
    exact mget_eq_none_of_not_mem t k (fun hc => h (List.mem_cons_of_mem _ hc))

theorem mget_isSome_of_mem [DecidableEq κ] :
    ∀ (m : List (κ × β)) (k : κ), k ∈ m.map Prod.fst →
      ∃ v, mget m k = some v
  | [], k, h => by simp at h
  | (a, b) :: t, k, h => by
    by_cases hak : a = k
    · exact ⟨b, by simp [mget, hak]⟩
    · rw [List.map_cons, List.mem_cons] at h
      rcases h with h' | h'
      · exact absurd h'.symm hak
      · obtain ⟨v, hv⟩ := mget_isSome_of_mem t k h'
        refine ⟨v, ?_⟩
        simp only [mget]
        rw [if_neg hak]
        exact hv

theorem mget_merase_ne [DecidableEq κ] (k' : κ) :
    ∀ (m : List (κ × β)) (k : κ), k' ≠ k →
      mget (merase m k) k' = mget m k'
  | [], k, h => rfl
  | (a, b) :: t, k, h => by
    by_cases hak : a = k
    · subst hak
      have h1 : merase ((a, b) :: t) a = t := by simp [merase]
      rw [h1]
      simp only [mget]
      rw [if_neg (fun hc => h hc.symm)]
    · simp only [merase, if_neg hak, mget]
      by_cases hak' : a = k'
      · rw [if_pos hak', if_pos hak']
      · rw [if_neg hak', if_neg hak']
        exact mget_merase_ne k' t k h

theorem map_fst_merase_sublist [DecidableEq κ] :
    ∀ (m : List (κ × β)) (k : κ),
      ((merase m k).map Prod.fst).Sublist (m.map Prod.fst)
  | [], _ => by simp [merase]
  | (a, b) :: t, k => by
    by_cases hak : a = k
    · simp only [merase, if_pos hak, List.map_cons]
      exact (List.sublist_cons_self _ _)
    · simp only [merase, if_neg hak, List.map_cons]
      exact (map_fst_merase_sublist t k).cons₂ a

theorem mget_merase_self [DecidableEq κ] :
    ∀ (m : List (κ × β)) (k : κ), (m.map Prod.fst).Nodup →
      mget (merase m k) k = none
  | [], k, _ => rfl
  | (a, b) :: t, k, hnd => by
    by_cases hak : a = k
    · subst hak
      simp only [merase, if_pos rfl]
      exact mget_eq_none_of_not_mem t a (by simpa using (List.nodup_cons.mp hnd).1)
    · simp only [merase, if_neg hak, mget, if_neg hak]
      exact mget_merase_self t k (List.nodup_cons.mp hnd).2

theorem mem_sadd (s : List String) (x y : String) :
    y ∈ sadd s x ↔ y ∈ s ∨ y = x := by
  unfold sadd
  by_cases h : x ∈ s
  · rw [if_pos h]
    constructor
    · exact Or.inl
    · rintro (h' | rfl)
      · exact h'
      · exact h
  · rw [if_neg h]
    simp

theorem mem_serase (s : List String) (x y : String) :
    y ∈ serase s x ↔ y ∈ s ∧ y ≠ x := by
  unfold serase
  simp

/-! # Lemmas about the HNSW graph primitives -/

namespace HNSW

theorem nodeNbrs_set (n : HNSWNode) (l : Nat) (L : List String) (l' : Nat) :
    nodeNbrs { n with neighbors := mset n.neighbors l L } l' =
      if l' = l then L else nodeNbrs n l' := by
  unfold nodeNbrs
  by_cases h : l' = l
  · subst h
    rw [if_pos rfl, mget_mset_self]
    rfl
  · rw [if_neg h, mget_mset_ne l' n.neighbors l L h]

theorem nodeNbrs_adjAdd (n : HNSWNode) (l : Nat) (x : String) (l' : Nat) :
    nodeNbrs (adjAdd n l x) l' =
      if l' = l then sadd (nodeNbrs n l) x else nodeNbrs n l' :=
  nodeNbrs_set n l (sadd (nodeNbrs n l) x) l'

theorem nodeNbrs_adjErase (n : HNSWNode) (l : Nat) (x : String) (l' : Nat) :
    nodeNbrs (adjErase n l x) l' =
      if l' = l then serase (nodeNbrs n l) x else nodeNbrs n l' := by
  unfold adjErase
  cases hm : mget n.neighbors l with
  | none =>
    have hl : nodeNbrs n l = [] := by unfold nodeNbrs; rw [hm]; rfl
    by_cases h : l' = l
    · subst h
      rw [if_pos rfl, hl]
      rfl
    · rw [if_neg h]
  | some s =>
    have hl : nodeNbrs n l = s := by unfold nodeNbrs; rw [hm]; rfl
    rw [nodeNbrs_set, hl]

theorem vector_adjAdd (n : HNSWNode) (l : Nat) (x : String) :
    (adjAdd n l x).vector = n.vector := rfl

theorem vector_adjErase (n : HNSWNode) (l : Nat) (x : String) :
    (adjErase n l x).vector = n.vector := by
  unfold adjErase
  cases mget n.neighbors l <;> rfl

theorem adjKeys_set_nodup (n : HNSWNode) (l : Nat) (L : List String)
    (h : (n.neighbors.map Prod.fst).Nodup) :
    ((mset n.neighbors l L).map Prod.fst).Nodup := by
  rw [map_fst_mset]
  by_cases hm : l ∈ n.neighbors.map Prod.fst
  · rw [if_pos hm]
    exact h
  · rw [if_neg hm]
    rw [List.nodup_append]
    refine ⟨h, List.nodup_singleton l, ?_⟩
    intro a ha hb
    rw [List.mem_singleton] at hb
    subst hb
    exact hm ha

theorem updNode_eq_of_none (m : Nodes) (k : String) (f : HNSWNode → HNSWNode)
    (h : mget m k = none) : updNode m k f = m := by
  unfold updNode
  rw [h]

theorem mget_updNode_self (m : Nodes) (k : String) (f : HNSWNode → HNSWNode)
    (n : HNSWNode) (h : mget m k = some n) :
    mget (updNode m k f) k = some (f n) := by
  unfold updNode
  rw [h, mget_mset_self]

theorem mget_updNode_ne (m : Nodes) (k : String) (f : HNSWNode → HNSWNode)
    (b : String) (hb : b ≠ k) : mget (updNode m k f) b = mget m b := by
  unfold updNode
  cases h : mget m k with
  | none => rfl
  | some n => rw [mget_mset_ne b m k (f n) hb]

theorem keys_updNode (m : Nodes) (k : String) (f : HNSWNode → HNSWNode) :
    keys (updNode m k f) = keys m := by
  unfold updNode
  cases h : mget m k with
  | none => rfl
  | some n =>
    unfold keys
    exact map_fst_mset_of_mem m k (f n) (mem_map_fst_of_mget m k n h)

theorem nbrsM_updNode_ne (m : Nodes) (k : String) (f : HNSWNode → HNSWNode)
    (b : String) (l' : Nat) (hb : b ≠ k) :
    nbrsM (updNode m k f) b l' = nbrsM m b l' := by
  unfold nbrsM
  rw [mget_updNode_ne m k f b hb]

theorem vector_updNode (m : Nodes) (k : String) (f : HNSWNode → HNSWNode)
    (hf : ∀ n, (f n).vector = n.vector) (b : String) :
    (mget (updNode m k f) b).map (fun n => n.vector) =
      (mget m b).map (fun n => n.vector) := by
  by_cases hb : b = k
  · subst hb
    cases h : mget m b with
    | none =>
      rw [updNode_eq_of_none m b f h, h]
    | some n =>
      rw [mget_updNode_self m b f n h]
      simp [hf n]
  · rw [mget_updNode_ne m k f b hb]

theorem nodupAdj_updNode (m : Nodes) (k : String) (f : HNSWNode → HNSWNode)
    (hf : ∀ n, (n.neighbors.map Prod.fst).Nodup →
      ((f n).neighbors.map Prod.fst).Nodup)
    (h : NodupAdjM m) : NodupAdjM (updNode m k f) := by
  intro b n hb
  by_cases hbk : b = k
  · subst hbk
    cases hm : mget m b with
    | none =>
      rw [updNode_eq_of_none m b f hm] at hb
      exact h b n hb
    | some n0 =>
      rw [mget_updNode_self m b f n0 hm] at hb
      injection hb with hb'
      subst hb'
      exact hf n0 (h b n0 hm)
  · rw [mget_updNode_ne m k f b hbk] at hb
    exact h b n hb

/-- Membership after adding `y` to `k`'s level-`l` set. -/
theorem mem_nbrs_updAdd (m : Nodes) (k : String) (l : Nat) (y : String)
    (x b : String) (l' : Nat) :
    x ∈ nbrsM (updNode m k (fun n => adjAdd n l y)) b l' ↔
      x ∈ nbrsM m b l' ∨ (b = k ∧ l' = l ∧ x = y ∧ k ∈ keys m) := by
  by_cases hbk : b = k
  · subst hbk
    cases hm : mget m b with
    | none =>
      rw [updNode_eq_of_none m b _ hm]
      have : b ∉ keys m := by
        intro hmem
        obtain ⟨v, hv⟩ := mget_isSome_of_mem m b hmem
        rw [hv] at hm
        cases hm
      simp [this]
    | some n =>
      have hkeys : b ∈ keys m := mem_map_fst_of_mget m b n hm
      have h1 : nbrsM (updNode m b (fun n => adjAdd n l y)) b l' =
          nodeNbrs (adjAdd n l y) l' := by
        unfold nbrsM
        rw [mget_updNode_self m b _ n hm]
      have h2 : nbrsM m b l' = nodeNbrs n l' := by
        unfold nbrsM
        rw [hm]
      rw [h1, h2, nodeNbrs_adjAdd]
      by_cases hl : l' = l
      · subst hl
        rw [if_pos rfl, mem_sadd]
        constructor
        · rintro (h | rfl)
          · exact Or.inl h
          · exact Or.inr ⟨rfl, rfl, rfl, hkeys⟩
        · rintro (h | ⟨-, -, rfl, -⟩)
          · exact Or.inl h
          · exact Or.inr rfl
      · rw [if_neg hl]
        simp [hl]
  · rw [nbrsM_updNode_ne m k _ b l' hbk]
    simp [hbk]

/-- Membership after erasing `y` from `r`'s level-`l` set. -/
theorem mem_nbrs_updErase (m : Nodes) (r : String) (l : Nat) (y : String)
    (x b : String) (l' : Nat) :
    x ∈ nbrsM (updNode m r (fun n => adjErase n l y)) b l' ↔
      x ∈ nbrsM m b l' ∧ ¬(b = r ∧ l' = l ∧ x = y) := by
  by_cases hbr : b = r
  · subst hbr
    cases hm : mget m b with
    | none =>
      rw [updNode_eq_of_none m b _ hm]
      have h2 : nbrsM m b l' = [] := by
        unfold nbrsM
        rw [hm]
      simp [h2]
    | some n =>
      have h1 : nbrsM (updNode m b (fun n => adjErase n l y)) b l' =
          nodeNbrs (adjErase n l y) l' := by
        unfold nbrsM
        rw [mget_updNode_self m b _ n hm]
      have h2 : nbrsM m b l' = nodeNbrs n l' := by
        unfold nbrsM
        rw [hm]
      rw [h1, h2, nodeNbrs_adjErase]
      by_cases hl : l' = l
      · subst hl
        rw [if_pos rfl, mem_serase]
        constructor
        · rintro ⟨h, hxy⟩
          exact ⟨h, by simp [hxy]⟩
        · rintro ⟨h, hny⟩
          refine ⟨h, ?_⟩
          intro hc
          exact hny ⟨rfl, rfl, hc⟩
      · rw [if_neg hl]
        simp [hl]
  · rw [nbrsM_updNode_ne m r _ b l' hbr]
    simp [hbr]

/-- Membership after keeping only `P`-satisfying neighbors in `k`'s
level-`l` set. -/
theorem mem_nbrs_updFilter (m : Nodes) (k : String) (l : Nat)
    (P : String → Bool) (x b : String) (l' : Nat) :
    x ∈ nbrsM (updNode m k (fun n =>
        { n with neighbors := mset n.neighbors l ((nodeNbrs n l).filter P) }))
      b l' ↔
      x ∈ nbrsM m b l' ∧ (b = k → l' = l → P x = true) := by
  by_cases hbk : b = k
  · subst hbk
    cases hm : mget m b with
    | none =>
      rw [updNode_eq_of_none m b _ hm]
      have h2 : nbrsM m b l' = [] := by
        unfold nbrsM
        rw [hm]
      simp [h2]
    | some n =>
      have h1 : nbrsM (updNode m b (fun n => { n with neighbors := mset n.neighbors l ((nodeNbrs n l).filter P) })) b l' = nodeNbrs { n with neighbors := mset n.neighbors l ((nodeNbrs n l).filter P) } l' := by
        unfold nbrsM
        rw [mget_updNode_self m b _ n hm]
      have h2 : nbrsM m b l' = nodeNbrs n l' := by
        unfold nbrsM
        rw [hm]
      rw [h1, h2, nodeNbrs_set]
      by_cases hl : l' = l
      · subst hl
        rw [if_pos rfl, List.mem_filter]
        constructor
        · rintro ⟨h, hp⟩
          exact ⟨h, fun _ _ => hp⟩
        · rintro ⟨h, hp⟩
          exact ⟨h, hp rfl rfl⟩
      · rw [if_neg hl]
        simp [hl]
  · rw [nbrsM_updNode_ne m k _ b l' hbk]
    simp [hbk]

end HNSW

namespace HNSW

theorem keys_foldl {γ : Type} (g : Nodes → γ → Nodes)
    (hg : ∀ ms x, keys (g ms x) = keys ms) :
    ∀ (L : List γ) (m : Nodes), keys (L.foldl g m) = keys m
  | [], m => rfl
  | x :: t, m => by
    rw [List.foldl_cons, keys_foldl g hg t (g m x), hg m x]

theorem vector_foldl {γ : Type} (g : Nodes → γ → Nodes)
    (hg : ∀ ms x k, (mget (g ms x) k).map (fun n => n.vector) =
      (mget ms k).map (fun n => n.vector)) :
    ∀ (L : List γ) (m : Nodes) (k : String),
      (mget (L.foldl g m) k).map (fun n => n.vector) =
        (mget m k).map (fun n => n.vector)
  | [], m, k => rfl
  | x :: t, m, k => by
    rw [List.foldl_cons, vector_foldl g hg t (g m x) k, hg m x k]

theorem nodupAdj_foldl {γ : Type} (g : Nodes → γ → Nodes)
    (hg : ∀ ms x, NodupAdjM ms → NodupAdjM (g ms x)) :
    ∀ (L : List γ) (m : Nodes), NodupAdjM m → NodupAdjM (L.foldl g m)
  | [], _, h => h
  | x :: t, m, h => by
    rw [List.foldl_cons]
    exact nodupAdj_foldl g hg t (g m x) (hg m x h)

theorem mem_nbrs_eraseFold (l : Nat) (y : String) :
    ∀ (R : List String) (m : Nodes) (x b : String) (l' : Nat),
      (x ∈ nbrsM (R.foldl
          (fun ms r => updNode ms r (fun n => adjErase n l y)) m) b l' ↔
        x ∈ nbrsM m b l' ∧ ¬(b ∈ R ∧ l' = l ∧ x = y))
  | [], m, x, b, l' => by simp
  | r :: R, m, x, b, l' => by
    rw [List.foldl_cons,
      mem_nbrs_eraseFold l y R (updNode m r (fun n => adjErase n l y)) x b l',
      mem_nbrs_updErase m r l y x b l']
    simp only [List.mem_cons]
    tauto

theorem mem_nbrs_deleteFold (y : String) :
    ∀ (E : List (Nat × List String)) (m : Nodes) (x b : String) (l' : Nat),
      (x ∈ nbrsM (E.foldl (fun ms e =>
          e.2.foldl (fun ms' nbId =>
            updNode ms' nbId (fun n => adjErase n e.1 y)) ms) m) b l' ↔
        x ∈ nbrsM m b l' ∧ ∀ e ∈ E, ¬(e.1 = l' ∧ b ∈ e.2 ∧ x = y))
  | [], m, x, b, l' => by simp
  | e :: E, m, x, b, l' => by
    rw [List.foldl_cons, mem_nbrs_deleteFold y E _ x b l',
      mem_nbrs_eraseFold e.1 y e.2 m x b l']
    simp only [List.mem_cons]
    constructor
    · rintro ⟨⟨h1, h2⟩, h3⟩
      refine ⟨h1, ?_⟩
      rintro e' (rfl | he')
      · rintro ⟨hl, hb, hx⟩
        exact h2 ⟨hb, hl.symm, hx⟩
      · exact h3 e' he'
    · rintro ⟨h1, h2⟩
      refine ⟨⟨h1, ?_⟩, ?_⟩
      · rintro ⟨hb, hl, hx⟩
        exact h2 e (Or.inl rfl) ⟨hl.symm, hb, hx⟩
      · intro e' he'
        exact h2 e' (Or.inr he')

theorem keys_prune (sq : ℚ → ℚ) (m : Nodes) (nid : String) (l : Nat) :
    keys (pruneConnections sq m nid l) = keys m := by
  unfold pruneConnections
  cases hm : mget m nid with
  | none => rfl
  | some node =>
    dsimp only
    by_cases hsz : (nodeNbrs node l).length ≤ hnswM
    · rw [if_pos hsz]
    · rw [if_neg hsz]
      rw [keys_foldl _ (fun ms x => keys_updNode ms x _), keys_updNode]

theorem vector_prune (sq : ℚ → ℚ) (m : Nodes) (nid : String) (l : Nat)
    (k : String) :
    (mget (pruneConnections sq m nid l) k).map (fun n => n.vector) =
      (mget m k).map (fun n => n.vector) := by
  unfold pruneConnections
  cases hm : mget m nid with
  | none => rfl
  | some node =>
    dsimp only
    by_cases hsz : (nodeNbrs node l).length ≤ hnswM
    · rw [if_pos hsz]
    · rw [if_neg hsz]
      rw [vector_foldl _ (fun ms x k' =>
        vector_updNode ms x _ (fun n => vector_adjErase n l nid) k')]
      apply vector_updNode
      intro n
      rfl

theorem nodupAdj_prune (sq : ℚ → ℚ) (m : Nodes) (nid : String) (l : Nat)
    (h : NodupAdjM m) : NodupAdjM (pruneConnections sq m nid l) := by
  unfold pruneConnections
  cases hm : mget m nid with
  | none => exact h
  | some node =>
    dsimp only
    by_cases hsz : (nodeNbrs node l).length ≤ hnswM
    · rw [if_pos hsz]
      exact h
    · rw [if_neg hsz]
      refine nodupAdj_foldl _ ?_ _ _ (nodupAdj_updNode _ _ _ ?_ h)
      · intro ms x hms
        refine nodupAdj_updNode _ _ _ ?_ hms
        intro n hn
        unfold adjErase
        cases mget n.neighbors l with
        | none => exact hn
        | some s => exact adjKeys_set_nodup n l (serase s nid) hn
      · intro n hn
        exact adjKeys_set_nodup n l _ hn

end HNSW

namespace HNSW

theorem mem_nbrs_prune_mono (sq : ℚ → ℚ) (m : Nodes) (nid : String) (l : Nat)
    (x b : String) (l' : Nat)
    (hx : x ∈ nbrsM (pruneConnections sq m nid l) b l') :
    x ∈ nbrsM m b l' := by
  unfold pruneConnections at hx
  cases hm : mget m nid with
  | none =>
    rw [hm] at hx
    dsimp only at hx
    exact hx
  | some node =>
    rw [hm] at hx
    dsimp only at hx
    by_cases hsz : (nodeNbrs node l).length ≤ hnswM
    · rw [if_pos hsz] at hx
      exact hx
    · rw [if_neg hsz] at hx
      rw [mem_nbrs_eraseFold] at hx
      rw [mem_nbrs_updFilter] at hx
      exact hx.1.1

theorem prune_sym (sq : ℚ → ℚ) (m : Nodes) (nid : String) (l : Nat)
    (hsym : SymM m) : SymM (pruneConnections sq m nid l) := by
  intro x b l' hx
  unfold pruneConnections at hx ⊢
  cases hm : mget m nid with
  | none =>
    rw [hm] at hx
    dsimp only at hx ⊢
    exact hsym x b l' hx
  | some node =>
    rw [hm] at hx
    dsimp only at hx ⊢
    by_cases hsz : (nodeNbrs node l).length ≤ hnswM
    · rw [if_pos hsz] at hx ⊢
      exact hsym x b l' hx
    · rw [if_neg hsz] at hx ⊢
      rw [mem_nbrs_eraseFold] at hx
      rw [mem_nbrs_updFilter] at hx
      obtain ⟨⟨hmem, hfilt⟩, hrem⟩ := hx
      have hsymb : b ∈ nbrsM m x l' := hsym x b l' hmem
      rw [mem_nbrs_eraseFold, mem_nbrs_updFilter]
      refine ⟨⟨hsymb, ?_⟩, ?_⟩
      · -- x = nid ∧ l' = l forces b to be kept
        intro hx1 hl1
        rw [hx1, hl1] at hsymb
        have hbnbrs : b ∈ nodeNbrs node l := by
          have heq : nbrsM m nid l = nodeNbrs node l := by
            unfold nbrsM
            rw [hm]
          rw [← heq]
          exact hsymb
        have hbnot : b ∉ (nodeNbrs node l).filter (fun z =>
            decide (z ∉ (List.map (fun p => p.1)
              (List.take hnswM (sortBy (fun p => p.2)
                (List.map (fun z => (z, match mget m z with
                  | some nz => distance sq node.vector nz.vector
                  | none => 0)) (nodeNbrs node l))))))) := by
          intro hc
          exact hrem ⟨hc, hl1, hx1⟩
        rw [List.mem_filter] at hbnot
        simp only [decide_eq_true_eq, not_and, not_not] at hbnot
        simp only [decide_eq_true_eq]
        exact hbnot hbnbrs
      · -- x cannot be among the removed ids when b = nid at level l
        rintro ⟨hxrem, hl1, hb1⟩
        rw [List.mem_filter] at hxrem
        simp only [decide_eq_true_eq] at hxrem
        have hkeep := hfilt hb1 hl1
        simp only [decide_eq_true_eq] at hkeep
        exact hxrem.2 hkeep

theorem prune_closed (sq : ℚ → ℚ) (m : Nodes) (nid : String) (l : Nat)
    (hclosed : ClosedM m) : ClosedM (pruneConnections sq m nid l) := by
  intro x b l' hx
  unfold ClosedM at hclosed
  rw [keys_prune]
  exact hclosed x b l' (mem_nbrs_prune_mono sq m nid l x b l' hx)

end HNSW

namespace HNSW

theorem keys_connect (sq : ℚ → ℚ) (m : Nodes) (id : String) (l : Nat)
    (nbId : String) : keys (connectNeighbor sq m id l nbId) = keys m := by
  unfold connectNeighbor
  dsimp only
  split
  · rw [keys_prune, keys_updNode, keys_updNode]
  · rw [keys_updNode, keys_updNode]

theorem vector_connect (sq : ℚ → ℚ) (m : Nodes) (id : String) (l : Nat)
    (nbId : String) (k : String) :
    (mget (connectNeighbor sq m id l nbId) k).map (fun n => n.vector) =
      (mget m k).map (fun n => n.vector) := by
  unfold connectNeighbor
  dsimp only
  split
  · rw [vector_prune,
      vector_updNode _ _ _ (fun n => vector_adjAdd n l id) k,
      vector_updNode _ _ _ (fun n => vector_adjAdd n l nbId) k]
  · rw [vector_updNode _ _ _ (fun n => vector_adjAdd n l id) k,
      vector_updNode _ _ _ (fun n => vector_adjAdd n l nbId) k]

theorem nodupAdj_adjAdd (n : HNSWNode) (l : Nat) (x : String)
    (h : (n.neighbors.map Prod.fst).Nodup) :
    ((adjAdd n l x).neighbors.map Prod.fst).Nodup := by
  unfold adjAdd
  exact adjKeys_set_nodup n l _ h

theorem nodupAdj_connect (sq : ℚ → ℚ) (m : Nodes) (id : String) (l : Nat)
    (nbId : String) (h : NodupAdjM m) :
    NodupAdjM (connectNeighbor sq m id l nbId) := by
  unfold connectNeighbor
  dsimp only
  split
  · exact nodupAdj_prune _ _ _ _ (nodupAdj_updNode _ _ _
      (fun n => nodupAdj_adjAdd n l id)
      (nodupAdj_updNode _ _ _ (fun n => nodupAdj_adjAdd n l nbId) h))
  · exact nodupAdj_updNode _ _ _ (fun n => nodupAdj_adjAdd n l id)
      (nodupAdj_updNode _ _ _ (fun n => nodupAdj_adjAdd n l nbId) h)

theorem sym_updAdd2 (m : Nodes) (id : String) (l : Nat) (nbId : String)
    (hsym : SymM m) (hid : id ∈ keys m) (hnb : nbId ∈ keys m) :
    SymM (updNode (updNode m id (fun n => adjAdd n l nbId)) nbId
      (fun n => adjAdd n l id)) := by
  have hiff : ∀ x b l', (x ∈ nbrsM (updNode (updNode m id
      (fun n => adjAdd n l nbId)) nbId (fun n => adjAdd n l id)) b l' ↔
      ((x ∈ nbrsM m b l' ∨ (b = id ∧ l' = l ∧ x = nbId ∧ id ∈ keys m)) ∨
        (b = nbId ∧ l' = l ∧ x = id ∧
          nbId ∈ keys (updNode m id (fun n => adjAdd n l nbId))))) := by
    intro x b l'
    rw [mem_nbrs_updAdd, mem_nbrs_updAdd]
  intro x b l' hx
  rw [hiff] at hx
  rw [hiff]
  rcases hx with (hx | ⟨hb, hl, hxe, -⟩) | ⟨hb, hl, hxe, -⟩
  · exact Or.inl (Or.inl (hsym x b l' hx))
  · -- the freshly added edge id → nbId; its reverse is the other update
    subst hb; subst hl; subst hxe
    refine Or.inr ⟨rfl, rfl, rfl, ?_⟩
    rw [keys_updNode]
    exact hnb
  · -- the freshly added edge nbId → id
    subst hb; subst hl; subst hxe
    exact Or.inl (Or.inr ⟨rfl, rfl, rfl, hid⟩)

theorem closed_updAdd2 (m : Nodes) (id : String) (l : Nat) (nbId : String)
    (hclosed : ClosedM m) (hid : id ∈ keys m) (hnb : nbId ∈ keys m) :
    ClosedM (updNode (updNode m id (fun n => adjAdd n l nbId)) nbId
      (fun n => adjAdd n l id)) := by
  intro x b l' hx
  rw [mem_nbrs_updAdd, mem_nbrs_updAdd] at hx
  rw [keys_updNode, keys_updNode]
  rcases hx with (hx | ⟨-, -, hxe, -⟩) | ⟨-, -, hxe, -⟩
  · exact hclosed x b l' hx
  · subst hxe; exact hnb
  · subst hxe; exact hid

theorem connect_sym (sq : ℚ → ℚ) (m : Nodes) (id : String) (l : Nat)
    (nbId : String) (hsym : SymM m) (hid : id ∈ keys m)
    (hnb : nbId ∈ keys m) : SymM (connectNeighbor sq m id l nbId) := by
  unfold connectNeighbor
  dsimp only
  split
  · exact prune_sym _ _ _ _ (sym_updAdd2 m id l nbId hsym hid hnb)
  · exact sym_updAdd2 m id l nbId hsym hid hnb

theorem connect_closed (sq : ℚ → ℚ) (m : Nodes) (id : String) (l : Nat)
    (nbId : String) (hclosed : ClosedM m) (hid : id ∈ keys m)
    (hnb : nbId ∈ keys m) : ClosedM (connectNeighbor sq m id l nbId) := by
  unfold connectNeighbor
  dsimp only
  split
  · exact prune_closed _ _ _ _ (closed_updAdd2 m id l nbId hclosed hid hnb)
  · exact closed_updAdd2 m id l nbId hclosed hid hnb

end HNSW

namespace HNSW

theorem greedyPass_mem (sq : ℚ → ℚ) (m : Nodes) (v : Vec) :
    ∀ (L : List String) (st : (String × ℚ) × Bool),
      (greedyPass sq m v L st).1.1 = st.1.1 ∨
        (greedyPass sq m v L st).1.1 ∈ keys m
  | [], st => Or.inl rfl
  | nid :: rest, ((c, d), ch) => by
    unfold greedyPass
    cases hm : mget m nid with
    | none => exact greedyPass_mem sq m v rest ((c, d), ch)
    | some n =>
      dsimp only
      by_cases hlt : distance sq v n.vector < d
      · rw [if_pos hlt]
        rcases greedyPass_mem sq m v rest ((nid, distance sq v n.vector), true)
          with h | h
        · exact Or.inr (by rw [h]; exact mem_map_fst_of_mget m nid n hm)
        · exact Or.inr h
      · rw [if_neg hlt]
        exact greedyPass_mem sq m v rest ((c, d), ch)

theorem greedyLoop_mem (sq : ℚ → ℚ) (m : Nodes) (v : Vec) (level : Nat) :
    ∀ (fuel : Nat) (st : String × ℚ),
      (greedyLoop sq m v level fuel st).1 = st.1 ∨
        (greedyLoop sq m v level fuel st).1 ∈ keys m
  | 0, st => Or.inl rfl
  | fuel + 1, (c, d) => by
    unfold greedyLoop
    dsimp only
    set nbrs := (match mget m c with
      | some n => nodeNbrs n level
      | none => []) with hnbrs
    rcases hp : greedyPass sq m v nbrs ((c, d), false) with ⟨st', ch⟩
    dsimp only
    cases ch with
    | false =>
      rw [if_neg (by simp)]
      have := greedyPass_mem sq m v nbrs ((c, d), false)
      rw [hp] at this
      exact this
    | true =>
      rw [if_pos rfl]
      rcases greedyLoop_mem sq m v level fuel st' with h | h
      · rw [h]
        have := greedyPass_mem sq m v nbrs ((c, d), false)
        rw [hp] at this
        exact this
      · exact Or.inr h

theorem greedySearch_mem (sq : ℚ → ℚ) (m : Nodes) (v : Vec) (start : String)
    (level : Nat) :
    (greedySearch sq m v start level).1 = start ∨
      (greedySearch sq m v start level).1 ∈ keys m := by
  unfold greedySearch
  exact greedyLoop_mem sq m v level (m.length + 1) (start, distTo sq m v start)

theorem exploreNbrs_res_subset (sq : ℚ → ℚ) (m : Nodes) (v : Vec) (ef : Nat)
    (furthest : ℚ) :
    ∀ (L : List String)
      (st : List String × List (String × ℚ) × List (String × ℚ))
      (p : String × ℚ), p ∈ (exploreNbrs sq m v ef furthest L st).2.2 →
      p.1 ∈ st.2.2.map Prod.fst ∨ p.1 ∈ keys m
  | [], st, p, hp => Or.inl (List.mem_map_of_mem Prod.fst hp)
  | nid :: rest, (visited, cand, res), p, hp => by
    unfold exploreNbrs at hp
    by_cases hv : nid ∈ visited
    · rw [if_pos hv] at hp
      exact exploreNbrs_res_subset sq m v ef furthest rest _ p hp
    · rw [if_neg hv] at hp
      cases hm : mget m nid with
      | none =>
        rw [hm] at hp
        dsimp only at hp
        exact exploreNbrs_res_subset sq m v ef furthest rest
          (visited ++ [nid], cand, res) p hp
      | some n =>
        rw [hm] at hp
        dsimp only at hp
        by_cases hc : res.length < ef ∨ distance sq v n.vector < furthest
        · rw [if_pos (by simpa using hc)] at hp
          rcases exploreNbrs_res_subset sq m v ef furthest rest _ p hp
            with h | h
          · -- trace membership back through the optional sort/dropLast
            by_cases hlen : (res ++ [(nid, distance sq v n.vector)]).length > ef
            · rw [if_pos hlen] at h
              have h2 : p.1 ∈ ((sortBy (fun p => p.2)
                  (res ++ [(nid, distance sq v n.vector)])).dropLast).map
                    Prod.fst := h
              have h3 : p.1 ∈ (sortBy (fun p => p.2)
                  (res ++ [(nid, distance sq v n.vector)])).map Prod.fst := by
                rcases List.mem_map.mp h2 with ⟨q, hq, hq2⟩
                exact List.mem_map.mpr
                  ⟨q, (List.dropLast_sublist _).subset hq, hq2⟩
              have h4 : p.1 ∈ (res ++ [(nid, distance sq v n.vector)]).map
                  Prod.fst := by
                rcases List.mem_map.mp h3 with ⟨q, hq, hq2⟩
                exact List.mem_map.mpr
                  ⟨q, (sortBy_perm (fun p => p.2) _).mem_iff.mp hq, hq2⟩
              rw [List.map_append, List.mem_append] at h4
              rcases h4 with h4 | h4
              · exact Or.inl h4
              · simp only [List.map_cons, List.map_nil,
                  List.mem_singleton] at h4
                rw [h4]
                exact Or.inr (mem_map_fst_of_mget m nid n hm)
            · rw [if_neg hlen] at h
              rw [List.map_append, List.mem_append] at h
              rcases h with h | h
              · exact Or.inl h
              · simp only [List.map_cons, List.map_nil,
                  List.mem_singleton] at h
                rw [h]
                exact Or.inr (mem_map_fst_of_mget m nid n hm)
          · exact Or.inr h
        · rw [if_neg (by simpa using hc)] at hp
          exact exploreNbrs_res_subset sq m v ef furthest rest
            (visited ++ [nid], cand, res) p hp

end HNSW

namespace HNSW

theorem searchLayerLoop_res_subset (sq : ℚ → ℚ) (m : Nodes) (v : Vec)
    (ef : Nat) (level : Nat) :
    ∀ (fuel : Nat)
      (st : List String × List (String × ℚ) × List (String × ℚ))
      (p : String × ℚ), p ∈ searchLayerLoop sq m v ef level fuel st →
      p.1 ∈ st.2.2.map Prod.fst ∨ p.1 ∈ keys m
  | 0, (_, _, res), p, hp => by
    unfold searchLayerLoop at hp
    exact Or.inl (List.mem_map_of_mem Prod.fst
      ((sortBy_perm (fun p => p.2) res).mem_iff.mp hp))
  | fuel + 1, (visited, cand, res), p, hp => by
    unfold searchLayerLoop at hp
    cases hcand : sortBy (fun p => p.2) cand with
    | nil =>
      rw [hcand] at hp
      exact Or.inl (List.mem_map_of_mem Prod.fst
        ((sortBy_perm (fun p => p.2) res).mem_iff.mp hp))
    | cons curr candRest =>
      rw [hcand] at hp
      dsimp only at hp
      by_cases hgt : curr.2 > ((sortBy (fun p => p.2) res).getLast?.map
          (fun p => p.2)).getD 0
      · rw [if_pos hgt] at hp
        have h1 := (sortBy_perm (fun p => p.2)
          (sortBy (fun p => p.2) res)).mem_iff.mp hp
        exact Or.inl (List.mem_map_of_mem Prod.fst
          ((sortBy_perm (fun p => p.2) res).mem_iff.mp h1))
      · rw [if_neg hgt] at hp
        rcases searchLayerLoop_res_subset sq m v ef level fuel _ p hp
          with h | h
        · rcases List.mem_map.mp h with ⟨q, hq, hq2⟩
          rcases exploreNbrs_res_subset sq m v ef
            (((sortBy (fun p => p.2) res).getLast?.map (fun p => p.2)).getD 0)
            (match mget m curr.1 with
             | some n => nodeNbrs n level
             | none => [])
            (visited, candRest, sortBy (fun p => p.2) res) q hq with h2 | h2
          · rcases List.mem_map.mp h2 with ⟨r, hr, hr2⟩
            rw [← hq2, ← hr2]
            exact Or.inl (List.mem_map_of_mem Prod.fst
              ((sortBy_perm (fun p => p.2) res).mem_iff.mp hr))
          · rw [← hq2]
            exact Or.inr h2
        · exact Or.inr h

theorem searchLayer_subset (sq : ℚ → ℚ) (m : Nodes) (v : Vec)
    (entry : String) (ef : Nat) (level : Nat) (p : String × ℚ)
    (hp : p ∈ searchLayer sq m v entry ef level) :
    p.1 = entry ∨ p.1 ∈ keys m := by
  unfold searchLayer at hp
  dsimp only at hp
  rcases searchLayerLoop_res_subset sq m v ef level (m.length + 1)
    ([entry], [(entry, distTo sq m v entry)],
      [(entry, distTo sq m v entry)]) p hp with h | h
  · simp only [List.map_cons, List.map_nil, List.mem_singleton] at h
    exact Or.inl h
  · exact Or.inr h

end HNSW

namespace HNSW

theorem connect_fold_inv (sq : ℚ → ℚ) (id : String) (l : Nat) :
    ∀ (S : List (String × ℚ)) (m : Nodes),
      SymM m → ClosedM m → NodupAdjM m → id ∈ keys m →
      (∀ p ∈ S, p.1 ∈ keys m) →
      SymM (S.foldl (fun ms nb => connectNeighbor sq ms id l nb.1) m) ∧
      ClosedM (S.foldl (fun ms nb => connectNeighbor sq ms id l nb.1) m) ∧
      NodupAdjM (S.foldl (fun ms nb => connectNeighbor sq ms id l nb.1) m) ∧
      keys (S.foldl (fun ms nb => connectNeighbor sq ms id l nb.1) m) = keys m
  | [], m, hsym, hclosed, hnd, _, _ => ⟨hsym, hclosed, hnd, rfl⟩
  | nb :: S, m, hsym, hclosed, hnd, hid, hS => by
    rw [List.foldl_cons]
    have hnb : nb.1 ∈ keys m := hS nb (List.mem_cons_self nb S)
    have hk : keys (connectNeighbor sq m id l nb.1) = keys m :=
      keys_connect sq m id l nb.1
    have IH := connect_fold_inv sq id l S (connectNeighbor sq m id l nb.1)
      (connect_sym sq m id l nb.1 hsym hid hnb)
      (connect_closed sq m id l nb.1 hclosed hid hnb)
      (nodupAdj_connect sq m id l nb.1 hnd)
      (by rw [hk]; exact hid)
      (fun p hp => by rw [hk]; exact hS p (List.mem_cons_of_mem nb hp))
    exact ⟨IH.1, IH.2.1, IH.2.2.1, IH.2.2.2.trans hk⟩

theorem insertLayerStep_inv (sq : ℚ → ℚ) (v : Vec) (id : String)
    (st : Nodes × String) (l : Nat)
    (hsym : SymM st.1) (hclosed : ClosedM st.1) (hnd : NodupAdjM st.1)
    (hid : id ∈ keys st.1) (hcurr : st.2 ∈ keys st.1) :
    SymM (insertLayerStep sq v id st l).1 ∧
    ClosedM (insertLayerStep sq v id st l).1 ∧
    NodupAdjM (insertLayerStep sq v id st l).1 ∧
    keys (insertLayerStep sq v id st l).1 = keys st.1 ∧
    (insertLayerStep sq v id st l).2 ∈ keys st.1 := by
  rcases st with ⟨m, curr⟩
  dsimp only at hsym hclosed hnd hid hcurr ⊢
  unfold insertLayerStep
  dsimp only
  have hS : ∀ p ∈ (searchLayer sq m v curr efConstruction l).take hnswM,
      p.1 ∈ keys m := by
    intro p hp
    rcases searchLayer_subset sq m v curr efConstruction l p
      (List.take_subset _ _ hp) with h | h
    · rw [h]; exact hcurr
    · exact h
  obtain ⟨h1, h2, h3, h4⟩ := connect_fold_inv sq id l
    ((searchLayer sq m v curr efConstruction l).take hnswM) m
    hsym hclosed hnd hid hS
  refine ⟨h1, h2, h3, h4, ?_⟩
  cases hres : searchLayer sq m v curr efConstruction l with
  | nil => exact hcurr
  | cons r t =>
    dsimp only
    rcases searchLayer_subset sq m v curr efConstruction l r
      (by rw [hres]; exact List.mem_cons_self r t) with h | h
    · rw [h]; exact hcurr
    · exact h

theorem layers_fold_inv (sq : ℚ → ℚ) (v : Vec) (id : String) :
    ∀ (L : List Nat) (st : Nodes × String),
      SymM st.1 → ClosedM st.1 → NodupAdjM st.1 → id ∈ keys st.1 →
      st.2 ∈ keys st.1 →
      SymM (L.foldl (insertLayerStep sq v id) st).1 ∧
      ClosedM (L.foldl (insertLayerStep sq v id) st).1 ∧
      NodupAdjM (L.foldl (insertLayerStep sq v id) st).1 ∧
      keys (L.foldl (insertLayerStep sq v id) st).1 = keys st.1
  | [], st, hsym, hclosed, hnd, _, _ => ⟨hsym, hclosed, hnd, rfl⟩
  | l :: L, st, hsym, hclosed, hnd, hid, hcurr => by
    rw [List.foldl_cons]
    obtain ⟨h1, h2, h3, h4, h5⟩ :=
      insertLayerStep_inv sq v id st l hsym hclosed hnd hid hcurr
    have IH := layers_fold_inv sq v id L (insertLayerStep sq v id st l)
      h1 h2 h3 (by rw [h4]; exact hid) (by rw [h4]; exact h5)
    exact ⟨IH.1, IH.2.1, IH.2.2.1, IH.2.2.2.trans h4⟩

theorem descent_fold_mem (sq : ℚ → ℚ) (m : Nodes) (v : Vec) :
    ∀ (L : List Nat) (st : String × ℚ), st.1 ∈ keys m →
      (L.foldl (fun (st : String × ℚ) l =>
        let (c, d) := st
        let best := greedySearch sq m v c l
        if best.2 < d then best else (c, d)) st).1 ∈ keys m
  | [], _, h => h
  | l :: t, st, h => by
    rw [List.foldl_cons]
    apply descent_fold_mem sq m v t
    rcases st with ⟨c, d⟩
    dsimp only at h ⊢
    by_cases hlt : (greedySearch sq m v c l).2 < d
    · rw [if_pos hlt]
      rcases greedySearch_mem sq m v c l with h' | h'
      · rw [h']; exact h
      · exact h'
    · rw [if_neg hlt]
      exact h

/-- `new Map` values of an inserted node: every level in `0..level` maps to
an empty set, so every lookup's default is the empty list. -/
theorem mget_constNil :
    ∀ (L : List Nat) (l' : Nat),
      (mget (L.map (fun l => (l, ([] : List String)))) l').getD [] = []
  | [], _ => rfl
  | a :: t, l' => by
    simp only [List.map_cons, mget]
    by_cases h : a = l'
    · rw [if_pos h]
      rfl
    · rw [if_neg h]
      exact mget_constNil t l'

theorem nodeNbrs_newNode (id : String) (v : Vec) (k : Nat) (l' : Nat) :
    nodeNbrs ⟨id, v, (List.range k).map (fun l => (l, []))⟩ l' = [] := by
  unfold nodeNbrs
  exact mget_constNil (List.range k) l'

end HNSW

namespace HNSW

/-- Inserting a fresh id with empty per-level adjacency preserves the
graph invariants and appends the id to the key list. -/
theorem mset_fresh_inv (m : Nodes) (id : String) (v : Vec) (level : Nat)
    (hsym : SymM m) (hclosed : ClosedM m) (hnd : NodupAdjM m)
    (hknd : (keys m).Nodup) (hfresh : id ∉ keys m) :
    SymM (mset m id ⟨id, v, (List.range (level + 1)).map (fun l => (l, []))⟩) ∧
    ClosedM (mset m id ⟨id, v, (List.range (level + 1)).map (fun l => (l, []))⟩) ∧
    NodupAdjM (mset m id ⟨id, v, (List.range (level + 1)).map (fun l => (l, []))⟩) ∧
    (keys (mset m id ⟨id, v, (List.range (level + 1)).map (fun l => (l, []))⟩)).Nodup ∧
    keys (mset m id ⟨id, v, (List.range (level + 1)).map (fun l => (l, []))⟩) =
      keys m ++ [id] := by
  have hkeys : keys (mset m id
      ⟨id, v, (List.range (level + 1)).map (fun l => (l, []))⟩) =
      keys m ++ [id] := by
    show (mset m id
      ⟨id, v, (List.range (level + 1)).map (fun l => (l, []))⟩).map Prod.fst =
      m.map Prod.fst ++ [id]
    rw [map_fst_mset, if_neg (show id ∉ List.map Prod.fst m from hfresh)]
  have hmget_id : mget (mset m id
      ⟨id, v, (List.range (level + 1)).map (fun l => (l, []))⟩) id =
      some ⟨id, v, (List.range (level + 1)).map (fun l => (l, []))⟩ :=
    mget_mset_self m id _
  have hmget_ne : ∀ b, b ≠ id → mget (mset m id
      ⟨id, v, (List.range (level + 1)).map (fun l => (l, []))⟩) b = mget m b :=
    fun b hb => mget_mset_ne b m id _ hb
  have hnbrs_id : ∀ l', nbrsM (mset m id
      ⟨id, v, (List.range (level + 1)).map (fun l => (l, []))⟩) id l' = [] := by
    intro l'
    unfold nbrsM
    rw [hmget_id]
    exact nodeNbrs_newNode id v (level + 1) l'
  have hnbrs_ne : ∀ b, b ≠ id → ∀ l', nbrsM (mset m id
      ⟨id, v, (List.range (level + 1)).map (fun l => (l, []))⟩) b l' =
      nbrsM m b l' := by
    intro b hb l'
    unfold nbrsM
    rw [hmget_ne b hb]
  refine ⟨?_, ?_, ?_, ?_, hkeys⟩
  · intro a b l' ha
    by_cases hb : b = id
    · subst hb
      rw [hnbrs_id] at ha
      cases ha
    · rw [hnbrs_ne b hb] at ha
      have hak : a ∈ keys m := hclosed a b l' ha
      have hai : a ≠ id := fun h => hfresh (h ▸ hak)
      rw [hnbrs_ne a hai]
      exact hsym a b l' ha
  · intro a b l' ha
    by_cases hb : b = id
    · subst hb
      rw [hnbrs_id] at ha
      cases ha
    · rw [hnbrs_ne b hb] at ha
      rw [hkeys]
      exact List.mem_append.mpr (Or.inl (hclosed a b l' ha))
  · intro k n hk
    by_cases hki : k = id
    · subst hki
      rw [hmget_id] at hk
      injection hk with h
      subst h
      show ((((List.range (level + 1)).map (fun l => (l, []))).map
        (fun e => e.1)).Nodup)
      rw [List.map_map,
        show ((fun (e : Nat × List String) => e.1) ∘
          fun l => (l, ([] : List String))) = fun l => l from rfl,
        List.map_id']
      exact List.nodup_range (level + 1)
    · rw [hmget_ne k hki] at hk
      exact hnd k n hk
  · rw [hkeys]
    exact List.nodup_append.mpr ⟨hknd, List.nodup_singleton id, by
      intro a ha hb
      rw [List.mem_singleton] at hb
      subst hb
      exact hfresh ha⟩

end HNSW

namespace HNSW

/-- A fresh insert (id not currently stored, correct dimension check left to
the source's guard) preserves the graph invariants. -/
theorem insert_inv (sq : ℚ → ℚ) (idx : HNSWIndex) (level : Nat) (id : String)
    (v : Vec) (idx' : HNSWIndex) (hInv : Inv idx)
    (hfresh : id ∉ keys idx.nodes)
    (hok : insert sq idx level id v = .ok idx') : Inv idx' := by
  obtain ⟨hsym, hclosed, hentry, hknd, hnd⟩ := hInv
  unfold insert at hok
  by_cases hdim : v.length ≠ idx.dimensions
  · rw [if_pos hdim] at hok
    cases hok
  · rw [if_neg hdim] at hok
    dsimp only at hok
    obtain ⟨hsym₀, hclosed₀, hnd₀, hknd₀, hkeys₀⟩ :=
      mset_fresh_inv idx.nodes id v level hsym hclosed hnd hknd hfresh
    have hid₀ : id ∈ keys (mset idx.nodes id
        ⟨id, v, (List.range (level + 1)).map (fun l => (l, []))⟩) := by
      rw [hkeys₀]
      exact List.mem_append.mpr (Or.inr (List.mem_singleton_self id))
    have hsub₀ : ∀ x ∈ keys idx.nodes, x ∈ keys (mset idx.nodes id
        ⟨id, v, (List.range (level + 1)).map (fun l => (l, []))⟩) := by
      intro x hx
      rw [hkeys₀]
      exact List.mem_append.mpr (Or.inl hx)
    cases hep : idx.entryPoint with
    | none =>
      rw [hep] at hok
      dsimp only at hok
      injection hok with h
      subst h
      refine ⟨hsym₀, hclosed₀, ?_, hknd₀, hnd₀⟩
      intro e he
      have he' : some id = some e := he
      injection he' with he2
      rw [← he2]
      exact hid₀
    | some ep =>
      rw [hep] at hok
      dsimp only at hok
      have hep_keys : ep ∈ keys idx.nodes := hentry ep hep
      rcases hfoldd : ((((List.range (idx.maxLevel + 1)).drop
            (level + 1))).reverse).foldl (fun (st : String × ℚ) l =>
          let (c, d) := st
          let best := greedySearch sq (mset idx.nodes id
            ⟨id, v, (List.range (level + 1)).map (fun l => (l, []))⟩) v c l
          if best.2 < d then best else (c, d))
          (ep, distTo sq (mset idx.nodes id
            ⟨id, v, (List.range (level + 1)).map (fun l => (l, []))⟩) v ep)
        with ⟨c₁, d₁⟩
      rw [hfoldd] at hok
      dsimp only at hok
      have hc₁ : c₁ ∈ keys (mset idx.nodes id
          ⟨id, v, (List.range (level + 1)).map (fun l => (l, []))⟩) := by
        have hm := descent_fold_mem sq (mset idx.nodes id
            ⟨id, v, (List.range (level + 1)).map (fun l => (l, []))⟩) v
          ((((List.range (idx.maxLevel + 1)).drop (level + 1))).reverse)
          (ep, distTo sq (mset idx.nodes id
            ⟨id, v, (List.range (level + 1)).map (fun l => (l, []))⟩) v ep)
          (hsub₀ ep hep_keys)
        rw [hfoldd] at hm
        exact hm
      rcases hfoldl : ((List.range (min level idx.maxLevel + 1)).reverse).foldl
          (insertLayerStep sq v id)
          (mset idx.nodes id
            ⟨id, v, (List.range (level + 1)).map (fun l => (l, []))⟩, c₁)
        with ⟨m₁, c₂⟩
      rw [hfoldl] at hok
      dsimp only at hok
      have hlay := layers_fold_inv sq v id
        ((List.range (min level idx.maxLevel + 1)).reverse)
        (mset idx.nodes id
          ⟨id, v, (List.range (level + 1)).map (fun l => (l, []))⟩, c₁)
        hsym₀ hclosed₀ hnd₀ hid₀ hc₁
      rw [hfoldl] at hlay
      obtain ⟨hs₁, hc₁', hn₁, hk₁⟩ := hlay
      by_cases hml : level > idx.maxLevel
      · rw [if_pos hml] at hok
        injection hok with h
        subst h
        refine ⟨hs₁, hc₁', ?_, ?_, hn₁⟩
        · intro e he
          have he' : some id = some e := he
          injection he' with he2
          show e ∈ keys m₁
          rw [← he2, hk₁]
          exact hid₀
        · show (keys m₁).Nodup
          rw [hk₁]
          exact hknd₀
      · rw [if_neg hml] at hok
        injection hok with h
        subst h
        refine ⟨hs₁, hc₁', ?_, ?_, hn₁⟩
        · intro e he
          have he' : some ep = some e := he
          injection he' with he2
          show e ∈ keys m₁
          rw [← he2, hk₁]
          exact hsub₀ ep hep_keys
        · show (keys m₁).Nodup
          rw [hk₁]
          exact hknd₀

end HNSW

theorem mem_of_mget [DecidableEq κ] :
    ∀ (m : List (κ × β)) (k : κ) (v : β), mget m k = some v → (k, v) ∈ m
  | [], _, _, h => by cases h
  | (a, b) :: t, k, v, h => by
    simp only [mget] at h
    by_cases hak : a = k
    · subst hak
      rw [if_pos rfl] at h
      injection h with h2
      subst h2
      exact List.mem_cons_self _ _
    · rw [if_neg hak] at h
      exact List.mem_cons_of_mem _ (mem_of_mget t k v h)

namespace HNSW

theorem nodupAdj_adjErase (n : HNSWNode) (l : Nat) (x : String)
    (h : (n.neighbors.map Prod.fst).Nodup) :
    ((adjErase n l x).neighbors.map Prod.fst).Nodup := by
  unfold adjErase
  cases mget n.neighbors l with
  | none => exact h
  | some s => exact adjKeys_set_nodup n l (serase s x) h

/-- `delete` preserves the graph invariants. -/
theorem delete_inv (idx : HNSWIndex) (id : String) (hInv : Inv idx) :
    Inv (deleteNode idx id).1 := by
  obtain ⟨hsym, hclosed, hentry, hknd, hnd⟩ := hInv
  unfold deleteNode
  cases hm : mget idx.nodes id with
  | none => exact ⟨hsym, hclosed, hentry, hknd, hnd⟩
  | some node =>
    dsimp only
    set m₁ := node.neighbors.foldl (fun ms (e : Nat × List String) =>
      e.2.foldl (fun ms' nbId =>
        updNode ms' nbId (fun n => adjErase n e.1 id)) ms) idx.nodes
      with hm₁def
    set m₂ := merase m₁ id with hm₂def
    have hkeys₁ : keys m₁ = keys idx.nodes := by
      rw [hm₁def]
      exact keys_foldl _ (fun ms e => keys_foldl _
        (fun ms' x => keys_updNode ms' x _) e.2 ms) node.neighbors idx.nodes
    have hknd₁ : (keys m₁).Nodup := by rw [hkeys₁]; exact hknd
    have hnd₁ : NodupAdjM m₁ := by
      rw [hm₁def]
      exact nodupAdj_foldl _ (fun ms e hms => nodupAdj_foldl _
        (fun ms' x hms' => nodupAdj_updNode ms' x _
          (fun n => nodupAdj_adjErase n e.1 id) hms') e.2 ms hms)
        node.neighbors idx.nodes hnd
    have hmget₂_id : mget m₂ id = none := by
      rw [hm₂def]
      exact mget_merase_self m₁ id hknd₁
    have hmget₂_ne : ∀ b, b ≠ id → mget m₂ b = mget m₁ b := by
      intro b hb
      rw [hm₂def]
      exact mget_merase_ne b m₁ id hb
    have hnbrs₂_id : ∀ l', nbrsM m₂ id l' = [] := by
      intro l'
      unfold nbrsM
      rw [hmget₂_id]
    have hnbrs₂_ne : ∀ b, b ≠ id → ∀ l', nbrsM m₂ b l' = nbrsM m₁ b l' := by
      intro b hb l'
      unfold nbrsM
      rw [hmget₂_ne b hb]
    have hchar : ∀ a b l', a ∈ nbrsM m₂ b l' →
        a ≠ id ∧ b ≠ id ∧ a ∈ nbrsM idx.nodes b l' := by
      intro a b l' ha
      by_cases hb : b = id
      · subst hb
        rw [hnbrs₂_id] at ha
        cases ha
      · rw [hnbrs₂_ne b hb, hm₁def, mem_nbrs_deleteFold] at ha
        obtain ⟨haidx, hcond⟩ := ha
        refine ⟨?_, hb, haidx⟩
        intro hai
        subst hai
        have hbn : b ∈ nodeNbrs node l' := by
          have h1 := hsym a b l' haidx
          have h2 : nbrsM idx.nodes a l' = nodeNbrs node l' := by
            unfold nbrsM
            rw [hm]
          rw [h2] at h1
          exact h1
        cases hs : mget node.neighbors l' with
        | none =>
          unfold nodeNbrs at hbn
          rw [hs] at hbn
          cases hbn
        | some s =>
          have hb_s : b ∈ s := by
            unfold nodeNbrs at hbn
            rw [hs] at hbn
            exact hbn
          exact hcond (l', s) (mem_of_mget node.neighbors l' s hs)
            ⟨rfl, hb_s, rfl⟩
    have hmem₂ : ∀ a b l', a ∈ nbrsM idx.nodes b l' → a ≠ id → b ≠ id →
        a ∈ nbrsM m₂ b l' := by
      intro a b l' ha hai hb
      rw [hnbrs₂_ne b hb, hm₁def, mem_nbrs_deleteFold]
      refine ⟨ha, ?_⟩
      rintro e - ⟨-, -, h3⟩
      exact hai h3
    have hsym₂ : SymM m₂ := by
      intro a b l' ha
      obtain ⟨hai, hb, haidx⟩ := hchar a b l' ha
      exact hmem₂ b a l' (hsym a b l' haidx) hb hai
    have hclosed₂ : ClosedM m₂ := by
      intro a b l' ha
      obtain ⟨hai, hb, haidx⟩ := hchar a b l' ha
      have hak : a ∈ keys m₁ := by
        rw [hkeys₁]
        exact hclosed a b l' haidx
      obtain ⟨w, hw⟩ := mget_isSome_of_mem m₁ a hak
      have hw₂ : mget m₂ a = some w := by
        rw [hmget₂_ne a hai]
        exact hw
      exact mem_map_fst_of_mget m₂ a w hw₂
    have hknd₂ : (keys m₂).Nodup := by
      rw [hm₂def]
      exact ((map_fst_merase_sublist m₁ id).nodup) hknd₁
    have hnd₂ : NodupAdjM m₂ := by
      intro k n hk
      by_cases hki : k = id
      · subst hki
        rw [hmget₂_id] at hk
        cases hk
      · rw [hmget₂_ne k hki] at hk
        exact hnd₁ k n hk
    have hkeymem : ∀ x, x ∈ keys idx.nodes → x ≠ id → x ∈ keys m₂ := by
      intro x hx hxi
      have hxm : x ∈ keys m₁ := by rw [hkeys₁]; exact hx
      obtain ⟨w, hw⟩ := mget_isSome_of_mem m₁ x hxm
      have hw₂ : mget m₂ x = some w := by
        rw [hmget₂_ne x hxi]
        exact hw
      exact mem_map_fst_of_mget m₂ x w hw₂
    by_cases hepid : idx.entryPoint = some id
    · rw [if_pos hepid]
      cases hm₂c : m₂ with
      | nil =>
        dsimp only
        refine ⟨?_, ?_, ?_, ?_, ?_⟩
        · intro a b l' ha
          have h0 : nbrsM ([] : Nodes) b l' = [] := rfl
          rw [h0] at ha
          cases ha
        · intro a b l' ha
          have h0 : nbrsM ([] : Nodes) b l' = [] := rfl
          rw [h0] at ha
          cases ha
        · intro e he
          cases he
        · exact List.nodup_nil
        · intro k n hk
          cases hk
      | cons p t =>
        rcases p with ⟨k, n⟩
        dsimp only
        rw [hm₂c] at hsym₂ hclosed₂ hknd₂ hnd₂
        refine ⟨hsym₂, hclosed₂, ?_, hknd₂, hnd₂⟩
        intro e he
        have he' : some k = some e := he
        injection he' with he2
        rw [← he2]
        exact List.mem_cons_self k _
    · rw [if_neg hepid]
      dsimp only
      refine ⟨hsym₂, hclosed₂, ?_, hknd₂, hnd₂⟩
      intro e he
      have he' : idx.entryPoint = some e := he
      have hei : e ≠ id := by
        intro h
        subst h
        exact hepid he'
      exact hkeymem e (hentry e he') hei

end HNSW

namespace HNSW

/-- The empty index satisfies the graph invariants. -/
theorem empty_inv (d : Nat) : Inv (emptyIndex d) := by
  refine ⟨?_, ?_, ?_, ?_, ?_⟩
  · intro a b l' ha
    have h0 : nbrsM (emptyIndex d).nodes b l' = [] := rfl
    rw [h0] at ha
    cases ha
  · intro a b l' ha
    have h0 : nbrsM (emptyIndex d).nodes b l' = [] := rfl
    rw [h0] at ha
    cases ha
  · intro e he
    exact Option.noConfusion he
  · exact List.nodup_nil
  · intro k n hk
    exact Option.noConfusion hk

/-- Along a run in which every insert uses a currently-unstored id, every
operation preserves the graph invariants. -/
theorem freshRun_inv (sq : ℚ → ℚ) :
    ∀ (ops : List HOp) (idx : HNSWIndex), Inv idx →
      freshRun sq idx ops = true → Inv (runOps sq idx ops)
  | [], idx, h, _ => h
  | op :: rest, idx, h, hf => by
    unfold freshRun at hf
    rw [Bool.and_eq_true] at hf
    obtain ⟨h1, h2⟩ := hf
    have hstep : Inv (applyOp sq idx op) := by
      cases op with
      | ins level id v =>
        have hfresh : id ∉ keys idx.nodes := by simpa using h1
        unfold applyOp
        dsimp only
        cases hins : insert sq idx level id v with
        | error e =>
          dsimp only
          exact h
        | ok idx' =>
          dsimp only
          exact insert_inv sq idx level id v idx' h hfresh hins
      | del id =>
        unfold applyOp
        dsimp only
        exact delete_inv idx id h
    have : runOps sq idx (op :: rest) = runOps sq (applyOp sq idx op) rest := by
      unfold runOps
      rw [List.foldl_cons]
    rw [this]
    exact freshRun_inv sq rest (applyOp sq idx op) hstep h2

end HNSW

theorem sqrtQ_one : Rat.sqrt 1 = 1 := by
  simp [Rat.sqrt]

namespace HNSW

theorem insertLayerStep_fst (sq : ℚ → ℚ) (v : Vec) (id : String)
    (m : Nodes) (curr : String) (l : Nat) :
    (insertLayerStep sq v id (m, curr) l).1 =
      ((searchLayer sq m v curr efConstruction l).take hnswM).foldl
        (fun ms nb => connectNeighbor sq ms id l nb.1) m := rfl

set_option maxHeartbeats 2000000 in
theorem keys_insertLayerStep (sq : ℚ → ℚ) (v : Vec) (id : String)
    (st : Nodes × String) (l : Nat) :
    keys (insertLayerStep sq v id st l).1 = keys st.1 := by
  rcases st with ⟨m, curr⟩
  show keys (insertLayerStep sq v id (m, curr) l).1 = keys m
  rw [insertLayerStep_fst]
  exact keys_foldl _ (fun ms nb => keys_connect sq ms id l nb.1)
    ((searchLayer sq m v curr efConstruction l).take hnswM) m

theorem vector_insertLayerStep (sq : ℚ → ℚ) (v : Vec) (id : String)
    (st : Nodes × String) (l : Nat) (k : String) :
    (mget (insertLayerStep sq v id st l).1 k).map (fun n => n.vector) =
      (mget st.1 k).map (fun n => n.vector) := by
  rcases st with ⟨m, curr⟩
  show (mget (insertLayerStep sq v id (m, curr) l).1 k).map
    (fun n => n.vector) = (mget m k).map (fun n => n.vector)
  rw [insertLayerStep_fst]
  exact vector_foldl _ (fun ms nb k' => vector_connect sq ms id l nb.1 k')
    ((searchLayer sq m v curr efConstruction l).take hnswM) m k

theorem keys_layers_fold (sq : ℚ → ℚ) (v : Vec) (id : String) :
    ∀ (L : List Nat) (st : Nodes × String),
      keys (L.foldl (insertLayerStep sq v id) st).1 = keys st.1
  | [], _ => rfl
  | l :: t, st => by
    rw [List.foldl_cons,
      keys_layers_fold sq v id t (insertLayerStep sq v id st l),
      keys_insertLayerStep]

theorem vector_layers_fold (sq : ℚ → ℚ) (v : Vec) (id : String) :
    ∀ (L : List Nat) (st : Nodes × String) (k : String),
      (mget (L.foldl (insertLayerStep sq v id) st).1 k).map
        (fun n => n.vector) = (mget st.1 k).map (fun n => n.vector)
  | [], _, _ => rfl
  | l :: t, st, k => by
    rw [List.foldl_cons,
      vector_layers_fold sq v id t (insertLayerStep sq v id st l) k,
      vector_insertLayerStep]

end HNSW

/-- C1 (amended): inserting an id that is already stored, with a vector of
the index's dimension, succeeds and overwrites the stored entry in place:
the node set is unchanged and the stored vector for the id becomes the new
vector.  It is NOT delete-then-insert: the old adjacency is not detached
first (see the counterexample), so the surrounding graph can differ from
the delete-then-insert result. -/
theorem C1_duplicate_insert_overwrites (sq : ℚ → ℚ) (idx : HNSW.HNSWIndex)
    (level : Nat) (id : String) (v : HNSW.Vec)
    (hdim : v.length = idx.dimensions) (hmem : id ∈ HNSW.keys idx.nodes) :
    ∃ idx', HNSW.insert sq idx level id v = .ok idx' ∧
      HNSW.keys idx'.nodes = HNSW.keys idx.nodes ∧
      (mget idx'.nodes id).map (fun n => n.vector) = some v := by
  unfold HNSW.insert
  rw [if_neg (show ¬v.length ≠ idx.dimensions from fun h => h hdim)]
  dsimp only
  have hkeys₀ : HNSW.keys (mset idx.nodes id
      ⟨id, v, (List.range (level + 1)).map (fun l => (l, []))⟩) =
      HNSW.keys idx.nodes :=
    map_fst_mset_of_mem idx.nodes id _ hmem
  have hvec₀ : (mget (mset idx.nodes id
      ⟨id, v, (List.range (level + 1)).map (fun l => (l, []))⟩) id).map
      (fun n => n.vector) = some v := by
    rw [mget_mset_self]
    rfl
  cases hep : idx.entryPoint with
  | none =>
    exact ⟨_, rfl, hkeys₀, hvec₀⟩
  | some ep =>
    dsimp only
    by_cases hml : level > idx.maxLevel
    · rw [if_pos hml]
      refine ⟨_, rfl, ?_, ?_⟩
      · exact (HNSW.keys_layers_fold sq v id _ _).trans hkeys₀
      · exact (HNSW.vector_layers_fold sq v id _ _ id).trans hvec₀
    · rw [if_neg hml]
      refine ⟨_, rfl, ?_, ?_⟩
      · exact (HNSW.keys_layers_fold sq v id _ _).trans hkeys₀
      · exact (HNSW.vector_layers_fold sq v id _ _ id).trans hvec₀

/-- C1 counterexample: starting from the two-node index built by inserting
"A" = [1,0] then "B" = [0,1] (levels 0), re-inserting the present id "A"
(level 0 again) yields a graph with a self-loop `A → ["A"]` and entry
point "A", while delete("A") followed by the same insert yields
`A → ["B"]` and entry point "B": duplicate insert is an in-place
overwrite, not delete-then-insert. -/
theorem C1_counterexample :
    HNSW.keys (HNSW.runOps Rat.sqrt (HNSW.emptyIndex 2)
      [.ins 0 "A" [1,0], .ins 0 "B" [0,1]]).nodes = ["A", "B"] ∧
    HNSW.nbrsOf (HNSW.runOps Rat.sqrt (HNSW.emptyIndex 2)
      [.ins 0 "A" [1,0], .ins 0 "B" [0,1], .ins 0 "A" [1,0]]) "A" 0 = ["A"] ∧
    HNSW.nbrsOf (HNSW.runOps Rat.sqrt (HNSW.emptyIndex 2)
      [.ins 0 "A" [1,0], .ins 0 "B" [0,1], .del "A", .ins 0 "A" [1,0]])
      "A" 0 = ["B"] ∧
    (HNSW.runOps Rat.sqrt (HNSW.emptyIndex 2)
      [.ins 0 "A" [1,0], .ins 0 "B" [0,1], .ins 0 "A" [1,0]]).entryPoint =
      some "A" ∧
    (HNSW.runOps Rat.sqrt (HNSW.emptyIndex 2)
      [.ins 0 "A" [1,0], .ins 0 "B" [0,1],
        .del "A", .ins 0 "A" [1,0]]).entryPoint = some "B" := by
  norm_num [HNSW.runOps, HNSW.applyOp, HNSW.insert, HNSW.deleteNode,
    HNSW.insertLayerStep, HNSW.searchLayer, HNSW.searchLayerLoop,
    HNSW.exploreNbrs, HNSW.greedySearch, HNSW.greedyLoop, HNSW.greedyPass,
    HNSW.connectNeighbor, HNSW.pruneConnections, HNSW.distance, HNSW.distTo,
    HNSW.nodeNbrs, HNSW.adjAdd, HNSW.adjErase, HNSW.updNode, mget, mset,
    merase, sadd, serase, sortBy, insortBy, HNSW.nbrsOf, HNSW.nbrsM,
    HNSW.keys, HNSW.emptyIndex, HNSW.hnswM, HNSW.efConstruction, sqrtQ_one]
  decide

/-- C1 witness: on the concrete two-node index (the state reached by the
counterexample's first two inserts), re-inserting "A" with its dimension-2
vector succeeds, keeps the node set `["A", "B"]`, and stores the new
vector under "A". -/
theorem C1_witness :
    (([1,0] : HNSW.Vec).length =
      (⟨[("A", ⟨"A", [1,0], [(0,["B"])]⟩), ("B", ⟨"B", [0,1], [(0,["A"])]⟩)],
        2, 0, some "A"⟩ : HNSW.HNSWIndex).dimensions) ∧
    "A" ∈ HNSW.keys (⟨[("A", ⟨"A", [1,0], [(0,["B"])]⟩),
        ("B", ⟨"B", [0,1], [(0,["A"])]⟩)], 2, 0, some "A"⟩ :
        HNSW.HNSWIndex).nodes ∧
    (∃ idx', HNSW.insert Rat.sqrt
        ⟨[("A", ⟨"A", [1,0], [(0,["B"])]⟩), ("B", ⟨"B", [0,1], [(0,["A"])]⟩)],
          2, 0, some "A"⟩ 0 "A" [1,0] = .ok idx' ∧
      HNSW.keys idx'.nodes = HNSW.keys (⟨[("A", ⟨"A", [1,0], [(0,["B"])]⟩),
        ("B", ⟨"B", [0,1], [(0,["A"])]⟩)], 2, 0, some "A"⟩ :
        HNSW.HNSWIndex).nodes ∧
      (mget idx'.nodes "A").map (fun n => n.vector) = some [1,0]) :=
  ⟨rfl, by decide,
    C1_duplicate_insert_overwrites Rat.sqrt
      ⟨[("A", ⟨"A", [1,0], [(0,["B"])]⟩), ("B", ⟨"B", [0,1], [(0,["A"])]⟩)],
        2, 0, some "A"⟩ 0 "A" [1,0] rfl (by decide)⟩

/-- C2 counterexample: after inserting "A", "B" and then re-inserting the
duplicate id "A" (all at level 0), "A" is a neighbor of "B" at level 0 but
"B" is not a neighbor of "A": the overwrite severed `A → B` while `B → A`
survived, so bidirectionality fails for runs with duplicate-id inserts. -/
theorem C2_counterexample :
    "A" ∈ HNSW.nbrsOf (HNSW.runOps Rat.sqrt (HNSW.emptyIndex 2)
      [.ins 0 "A" [1,0], .ins 0 "B" [0,1], .ins 0 "A" [1,0]]) "B" 0 ∧
    "B" ∉ HNSW.nbrsOf (HNSW.runOps Rat.sqrt (HNSW.emptyIndex 2)
      [.ins 0 "A" [1,0], .ins 0 "B" [0,1], .ins 0 "A" [1,0]]) "A" 0 := by
  norm_num [HNSW.runOps, HNSW.applyOp, HNSW.insert, HNSW.insertLayerStep,
    HNSW.searchLayer, HNSW.searchLayerLoop, HNSW.exploreNbrs,
    HNSW.greedySearch, HNSW.greedyLoop, HNSW.greedyPass, HNSW.connectNeighbor,
    HNSW.pruneConnections, HNSW.distance, HNSW.distTo, HNSW.nodeNbrs,
    HNSW.adjAdd, HNSW.adjErase, HNSW.updNode, mget, mset, merase, sadd,
    serase, sortBy, insortBy, HNSW.nbrsOf, HNSW.nbrsM, HNSW.keys,
    HNSW.emptyIndex, HNSW.hnswM, HNSW.efConstruction, sqrtQ_one]
  decide

/-- C2 (amended): for every sequence of insert and delete operations from
the empty index in which every insert uses an id that is not currently
stored, the resulting graph is bidirectional: for all nodes A, B and every
level ℓ, `A ∈ neighbors(B, ℓ)` iff `B ∈ neighbors(A, ℓ)`.  (With
duplicate-id inserts the property fails, see the counterexample.) -/
theorem C2_bidirectional_for_fresh_runs (sq : ℚ → ℚ) (d : Nat)
    (ops : List HNSW.HOp)
    (h : HNSW.freshRun sq (HNSW.emptyIndex d) ops = true) :
    ∀ a b l, a ∈ HNSW.nbrsOf (HNSW.runOps sq (HNSW.emptyIndex d) ops) b l ↔
      b ∈ HNSW.nbrsOf (HNSW.runOps sq (HNSW.emptyIndex d) ops) a l := by
  have hInv := HNSW.freshRun_inv sq ops (HNSW.emptyIndex d)
    (HNSW.empty_inv d) h
  intro a b l
  exact ⟨fun hx => hInv.1 a b l hx, fun hx => hInv.1 b a l hx⟩

/-- C2 witness: the fresh run insert "A" then delete "A" satisfies the
freshness side condition, and the resulting graph is bidirectional at the
concrete pair ("A", "B", level 0). -/
theorem C2_witness :
    HNSW.freshRun Rat.sqrt (HNSW.emptyIndex 2)
      [.ins 0 "A" [1,0], .del "A"] = true ∧
    ("A" ∈ HNSW.nbrsOf (HNSW.runOps Rat.sqrt (HNSW.emptyIndex 2)
        [.ins 0 "A" [1,0], .del "A"]) "B" 0 ↔
     "B" ∈ HNSW.nbrsOf (HNSW.runOps Rat.sqrt (HNSW.emptyIndex 2)
        [.ins 0 "A" [1,0], .del "A"]) "A" 0) :=
  ⟨by decide, C2_bidirectional_for_fresh_runs Rat.sqrt 2
    [.ins 0 "A" [1,0], .del "A"] (by decide) "A" "B" 0⟩
